import Mathlib

/-!
Verification of the Sollumz web conversion pipeline (mesh extractor, DDS
texture codec, YDR XML serializer, export orchestrator) against its
natural-language specification.

Shallow embedding conventions:
* JavaScript numbers holding integer values are modelled as `ℕ` (with
  explicit `% 2 ^ 32` where `DataView.setUint32` truncates);
* byte buffers are modelled as a size together with an index → byte map;
* strings are modelled as `String` or `List Char` where character-level
  reasoning is needed;
* fallible operations return `Except String`.
-/

/-- `DdsFormat` from `src/lib/formats/dds-encoder.ts`: `"DXT1" | "DXT5"`. -/
inductive DdsFormat where
  | DXT1 : DdsFormat
  | DXT5 : DdsFormat
deriving DecidableEq, Repr

/-- `DDS_MAGIC = 0x20534444` ("DDS "). -/
def DDS_MAGIC : ℕ := 0x20534444

/-- `FOURCC_DXT1 = 0x31545844` ("DXT1"). -/
def FOURCC_DXT1 : ℕ := 0x31545844

/-- `FOURCC_DXT5 = 0x35545844` ("DXT5"). -/
def FOURCC_DXT5 : ℕ := 0x35545844

/-- The doubling loop of `nearestPowerOf2`: `let p = 1; while (p < n) p *= 2`.
The `p = 0` branch is unreachable from the call site (`p` starts at 1 and
only doubles); it is included to justify termination. -/
def pow2Loop (n p : ℕ) : ℕ :=
  if p = 0 then 0
  else if p < n then pow2Loop n (2 * p)
  else p
termination_by n - p
decreasing_by
  rename_i h1 h2
  omega

/-- `nearestPowerOf2` from `src/lib/formats/dds-encoder.ts` lines 78–87.
For `n = 1` the JS code computes `lower = 0.5` and the guard
`(n - lower) < (p - n)` is `0.5 < 0`, false; the `ℕ` translation computes
`lower = 0` and fails the `0 < lower` guard, returning the same value `1`.
For `n ≥ 2` the loop value `p` is even, so `p / 2` and both subtractions
are exact and the translation is literal. -/
def nearestPowerOf2 (n : ℕ) : ℕ :=
  if n = 0 then 1
  else
    let p := pow2Loop n 1
    let lower := p / 2
    if 0 < lower ∧ n - lower < p - n ∧ 4 ≤ lower then lower else p

/-- Claim-side formalisation of the power-of-two rounding rule: the next
power of two `≥ n` is `2 ^ Nat.clog 2 n`; use the next-lower power instead
when `n` is strictly closer to it and it is `≥ 4`. -/
def claimNearestPow2 (n : ℕ) : ℕ :=
  let up := 2 ^ Nat.clog 2 n
  let lower := up / 2
  if 0 < lower ∧ n - lower < up - n ∧ 4 ≤ lower then lower else up

/-- The scanning loop of `hasAlpha` (`for (let i = 3; i < data.length; i += 4)`),
starting at index `i`. -/
def hasAlphaAux (data : List ℕ) (i : ℕ) : Bool :=
  if h : i < data.length then
    if data.get ⟨i, h⟩ < 250 then true else hasAlphaAux data (i + 4)
  else false
termination_by data.length - i
decreasing_by
  omega

/-- `hasAlpha` from `src/lib/formats/dds-encoder.ts` lines 125–130: scan
alpha bytes (indices 3, 7, 11, …) for a value `< 250`. -/
def hasAlpha (data : List ℕ) : Bool :=
  hasAlphaAux data 3

/-- The format-selection expression of `encodeToDds`
(`forceFormat || (hasAlpha(data) ? "DXT5" : "DXT1")`, line 159). -/
def chooseFormat (forceFormat : Option DdsFormat) (data : List ℕ) : DdsFormat :=
  forceFormat.getD (if hasAlpha data then DdsFormat.DXT5 else DdsFormat.DXT1)

/-- Model of a JS `ArrayBuffer`/`DataView`: a byte count plus an
index → byte map (indices `≥ size` are irrelevant; writes keep them 0). -/
structure ByteBuf where
  size : ℕ
  get : ℕ → ℕ

/-- `new ArrayBuffer(n)`: `n` zero bytes. -/
def ByteBuf.zeros (n : ℕ) : ByteBuf :=
  ⟨n, fun _ => 0⟩

/-- `DataView.setUint32(off, v, true)`: store `v % 2^32` little-endian at
offsets `off .. off+3`. -/
def writeU32 (b : ByteBuf) (off v : ℕ) : ByteBuf :=
  let w := v % 2 ^ 32
  ⟨b.size, fun i =>
    if i = off then w % 2 ^ 8
    else if i = off + 1 then w / 2 ^ 8 % 2 ^ 8
    else if i = off + 2 then w / 2 ^ 16 % 2 ^ 8
    else if i = off + 3 then w / 2 ^ 24 % 2 ^ 8
    else b.get i⟩

/-- `DataView.getUint32(off, true)`: read 4 bytes little-endian. -/
def readU32 (b : ByteBuf) (off : ℕ) : ℕ :=
  b.get off + 2 ^ 8 * b.get (off + 1) + 2 ^ 16 * b.get (off + 2) +
    2 ^ 24 * b.get (off + 3)

/-- `output.set(compressedData, headerSize)`: copy a byte list into the
buffer starting at offset `start`. -/
def ByteBuf.copyFrom (b : ByteBuf) (data : List ℕ) (start : ℕ) : ByteBuf :=
  ⟨b.size, fun i =>
    if start ≤ i ∧ i < start + data.length then data.getD (i - start) 0
    else b.get i⟩

/-- Block size of the two compression modes: 8 bytes per 4×4 tile for DXT1,
16 for DXT5 (`const blockSize = format === "DXT1" ? 8 : 16`). -/
def blockSize : DdsFormat → ℕ
  | DdsFormat.DXT1 => 8
  | DdsFormat.DXT5 => 16

/-- FourCC written for each format (`format === "DXT1" ? FOURCC_DXT1 : FOURCC_DXT5`). -/
def fourCCOf : DdsFormat → ℕ
  | DdsFormat.DXT1 => FOURCC_DXT1
  | DdsFormat.DXT5 => FOURCC_DXT5

/-- `Math.max(1, Math.ceil(width / 4))` — the per-axis block count. -/
def blocksOf (n : ℕ) : ℕ :=
  max 1 ((n + 3) / 4)

/-- `buildDdsFile` from `src/lib/formats/dds-encoder.ts` lines 175–215:
128-byte header (magic + DDS_HEADER with height at 12, width at 16,
linear size at 20, pixel format with fourCC at 84) followed by the
compressed payload. Flag constants are written with their summed values
(`DDSD_CAPS | DDSD_HEIGHT | DDSD_WIDTH | DDSD_PIXELFORMAT | DDSD_LINEARSIZE
| DDSD_MIPMAPCOUNT = 0xA1007`, `DDPF_FOURCC = 4`, `DDSCAPS_TEXTURE = 0x1000`). -/
def buildDdsFile (compressedData : List ℕ) (width height : ℕ) (format : DdsFormat) : ByteBuf :=
  let headerSize := 128
  let b0 := ByteBuf.zeros (headerSize + compressedData.length)
  let b1 := writeU32 b0 0 DDS_MAGIC
  let b2 := writeU32 b1 4 124
  let b3 := writeU32 b2 8 0xA1007
  let b4 := writeU32 b3 12 height
  let b5 := writeU32 b4 16 width
  let linearSize := blocksOf width * blocksOf height * blockSize format
  let b6 := writeU32 b5 20 linearSize
  let b7 := writeU32 b6 24 0
  let b8 := writeU32 b7 28 1
  let b9 := writeU32 b8 76 32
  let b10 := writeU32 b9 80 4
  let b11 := writeU32 b10 84 (fourCCOf format)
  let b12 := writeU32 b11 108 0x1000
  ByteBuf.copyFrom b12 compressedData headerSize

/-- Width/height read-back of `getDdsDimensions` (lines 111–120): height at
offset 12, width at offset 16, after checking the magic at offset 0. -/
def getDdsDimensions (b : ByteBuf) : Except String (ℕ × ℕ) :=
  if readU32 b 0 ≠ DDS_MAGIC then Except.error "Not a valid DDS file"
  else Except.ok (readU32 b 16, readU32 b 12)

/-- Format detection of the `encodeToDds` DDS pass-through path
(lines 149–151): `fourCC === FOURCC_DXT5 ? "DXT5" : "DXT1"`. -/
def detectDdsFormat (b : ByteBuf) : DdsFormat :=
  if readU32 b 84 = FOURCC_DXT5 then DdsFormat.DXT5 else DdsFormat.DXT1

/-- `extractBlock` (lines 258–273): a 4×4 RGBA tile at pixel position
`(px, py)`, clamping out-of-bounds reads to the last valid row/column. -/
def extractBlock (data : List ℕ) (width height px py : ℕ) : List ℕ :=
  (List.range 4).flatMap fun y =>
    (List.range 4).flatMap fun x =>
      let sx := min (px + x) (width - 1)
      let sy := min (py + y) (height - 1)
      let srcOff := (sy * width + sx) * 4
      [data.getD srcOff 0, data.getD (srcOff + 1) 0,
        data.getD (srcOff + 2) 0, data.getD (srcOff + 3) 0]

/-- Channel-wise minimum over the 16 texels of a block (the
`if (r < minR) minR = r` scan, initial value 255). -/
def chanMin (block : List ℕ) (c : ℕ) : ℕ :=
  (List.range 16).foldl (fun m i => min m (block.getD (i * 4 + c) 0)) 255

/-- Channel-wise maximum over the 16 texels of a block (initial value 0). -/
def chanMax (block : List ℕ) (c : ℕ) : ℕ :=
  (List.range 16).foldl (fun m i => max m (block.getD (i * 4 + c) 0)) 0

/-- `colorTo565` (lines 433–435): `((r >> 3) << 11) | ((g >> 2) << 5) | (b >> 3)`;
the three fields occupy disjoint bits, so bitwise or is addition. -/
def colorTo565 (r g b : ℕ) : ℕ :=
  r / 8 * 2 ^ 11 + g / 4 * 2 ^ 5 + b / 8

/-- `Math.round(a / 3)` for `a : ℕ` (JS rounds halves up). -/
def roundDiv3 (a : ℕ) : ℕ :=
  (a + 1) / 3

/-- `Math.round(a / 7)` for `a : ℕ` (JS rounds halves up). -/
def roundDiv7 (a : ℕ) : ℕ :=
  (a + 3) / 7

/-- The `bestIdx` scan shared by both block encoders: first index of
`cands` whose distance is strictly smaller than every earlier one
(`bestDist` starts at `Infinity`, modelled by `none`). -/
def bestIndex (cands : List ℤ) : ℕ :=
  ((cands.zip (List.range cands.length)).foldl
    (fun st p =>
      match st.1 with
      | none => (some p.1, p.2)
      | some bd => if p.1 < bd then (some p.1, p.2) else st)
    ((none : Option ℤ), 0)).2

/-- The inset endpoint pair of `encodeBC1Block` for one channel `c`:
`inset = (max − min) >> 4`, `min' = Math.min(255, min + inset)`,
`max' = Math.max(0, max − inset)`; returns `(min', max')`. -/
def insetEndpoints (block : List ℕ) (c : ℕ) : ℕ × ℕ :=
  let lo := chanMin block c
  let hi := chanMax block c
  let inset := (hi - lo) / 16
  (min 255 (lo + inset), max 0 (hi - inset))

/-- The 4-colour BC1 palette from the (already swapped) endpoints
`ep0`, `ep1`: the endpoints plus the two `Math.round` interpolants at
2/3–1/3 and 1/3–2/3 weights. -/
def bc1Palette (ep0 ep1 : ℕ × ℕ × ℕ) : List (ℕ × ℕ × ℕ) :=
  [ep0, ep1,
    (roundDiv3 (2 * ep0.1 + ep1.1), roundDiv3 (2 * ep0.2.1 + ep1.2.1),
      roundDiv3 (2 * ep0.2.2 + ep1.2.2)),
    (roundDiv3 (ep0.1 + 2 * ep1.1), roundDiv3 (ep0.2.1 + 2 * ep1.2.1),
      roundDiv3 (ep0.2.2 + 2 * ep1.2.2))]

/-- The nearest-palette-entry index for texel `i` of a block, by squared
Euclidean RGB distance (strict `<`, so the first minimum wins). -/
def bc1PixIdx (block : List ℕ) (palette : List (ℕ × ℕ × ℕ)) (i : ℕ) : ℕ :=
  let r := block.getD (i * 4) 0
  let g := block.getD (i * 4 + 1) 0
  let b := block.getD (i * 4 + 2) 0
  bestIndex (palette.map fun p =>
    ((r : ℤ) - p.1) ^ 2 + ((g : ℤ) - p.2.1) ^ 2 + ((b : ℤ) - p.2.2) ^ 2)

/-- `encodeBC1Block` (lines 279–370): min/max RGB endpoints, `>> 4` inset,
5:6:5 packing, endpoint swap when `c0 < c1`, 4-colour palette with
`Math.round` interpolation, per-texel nearest palette index by squared
RGB distance, 2-bit indices packed least-significant-first.  The JS
`indices` accumulator is a 32-bit `|=` of disjoint 2-bit fields, so it
equals this sum, and `(x >> k) & 0xff` extracts the same bytes. -/
def encodeBC1Block (block : List ℕ) : List ℕ :=
  let epR := insetEndpoints block 0
  let epG := insetEndpoints block 1
  let epB := insetEndpoints block 2
  let color0 := colorTo565 epR.2 epG.2 epB.2
  let color1 := colorTo565 epR.1 epG.1 epB.1
  let swap := color0 < color1
  let c0 := if swap then color1 else color0
  let c1 := if swap then color0 else color1
  let ep0 : ℕ × ℕ × ℕ := if swap then (epR.1, epG.1, epB.1) else (epR.2, epG.2, epB.2)
  let ep1 : ℕ × ℕ × ℕ := if swap then (epR.2, epG.2, epB.2) else (epR.1, epG.1, epB.1)
  let indices := (List.range 16).foldl
    (fun acc i => acc + bc1PixIdx block (bc1Palette ep0 ep1) i * 2 ^ (i * 2)) 0
  [c0 % 2 ^ 8, c0 / 2 ^ 8 % 2 ^ 8, c1 % 2 ^ 8, c1 / 2 ^ 8 % 2 ^ 8,
    indices % 2 ^ 8, indices / 2 ^ 8 % 2 ^ 8, indices / 2 ^ 16 % 2 ^ 8,
    indices / 2 ^ 24 % 2 ^ 8]

/-- `encodeBC3AlphaBlock` (lines 375–428): min/max alpha endpoints, 8-entry
alpha ramp (6 `Math.round` interpolants when `maxA > minA`, zeros
otherwise), per-texel nearest ramp index by absolute distance, 16 3-bit
indices packed least-significant-first into 6 bytes (BigInt in the JS,
exact `ℕ` arithmetic here). -/
def encodeBC3AlphaBlock (block : List ℕ) : List ℕ :=
  let minA := (List.range 16).foldl (fun m i => min m (block.getD (i * 4 + 3) 0)) 255
  let maxA := (List.range 16).foldl (fun m i => max m (block.getD (i * 4 + 3) 0)) 0
  let alphaPalette : List ℕ :=
    [maxA, minA] ++
      (if minA < maxA then
        (List.range 6).map fun i => roundDiv7 ((6 - i) * maxA + (1 + i) * minA)
      else List.replicate 6 0)
  let pixIdx := fun (i : ℕ) =>
    let a := block.getD (i * 4 + 3) 0
    bestIndex (alphaPalette.map fun p => |(a : ℤ) - (p : ℤ)|)
  let bits := (List.range 16).foldl (fun acc i => acc + pixIdx i * 2 ^ (i * 3)) 0
  [maxA, minA, bits % 2 ^ 8, bits / 2 ^ 8 % 2 ^ 8, bits / 2 ^ 16 % 2 ^ 8,
    bits / 2 ^ 24 % 2 ^ 8, bits / 2 ^ 32 % 2 ^ 8, bits / 2 ^ 40 % 2 ^ 8]

/-- `compressBC1` (lines 219–233): one 8-byte colour block per 4×4 tile,
row-major (`by` outer, `bx` inner). -/
def compressBC1 (data : List ℕ) (width height : ℕ) : List ℕ :=
  (List.range (blocksOf height)).flatMap fun row =>
    (List.range (blocksOf width)).flatMap fun col =>
      encodeBC1Block (extractBlock data width height (col * 4) (row * 4))

/-- `compressBC3` (lines 237–252): one 16-byte block per tile — 8 alpha
bytes followed by 8 colour bytes. -/
def compressBC3 (data : List ℕ) (width height : ℕ) : List ℕ :=
  (List.range (blocksOf height)).flatMap fun row =>
    (List.range (blocksOf width)).flatMap fun col =>
      let block := extractBlock data width height (col * 4) (row * 4)
      encodeBC3AlphaBlock block ++ encodeBC1Block block

/-- The compression dispatch of `encodeToDds` (lines 162–164). -/
def compressFor (format : DdsFormat) (data : List ℕ) (width height : ℕ) : List ℕ :=
  match format with
  | DdsFormat.DXT1 => compressBC1 data width height
  | DdsFormat.DXT5 => compressBC3 data width height

/-- The non-pass-through path of `encodeToDds` (lines 155–169): choose a
format from the alpha channel (or the explicit override), compress, and
build the container. -/
def encodeImageToDds (data : List ℕ) (width height : ℕ)
    (forceFormat : Option DdsFormat) : ByteBuf × DdsFormat :=
  let format := chooseFormat forceFormat data
  (buildDdsFile (compressFor format data width height) width height format, format)

/-- One iteration of the vertex-remap loop of `extractSubMesh`
(`src/lib/parsers/model-parser.ts` lines 146–152): if the original index is
unseen, append it to the remap with the next sequential local index
(`vertexRemap.set(origIdx, vertexRemap.size)`); then push its local index
onto `usedIndices`.  A JS `Map` preserves insertion order and keeps keys
unique, so it is modelled by an association list extended at the tail. -/
def remapStep (st : List (ℕ × ℕ) × List ℕ) (origIdx : ℕ) : List (ℕ × ℕ) × List ℕ :=
  match st.1.lookup origIdx with
  | some loc => (st.1, st.2 ++ [loc])
  | none => (st.1 ++ [(origIdx, st.1.length)], st.2 ++ [st.1.length])

/-- The whole remap loop over a walked sequence of original indices:
returns `(vertexRemap, usedIndices)`. -/
def buildRemap (walked : List ℕ) : List (ℕ × ℕ) × List ℕ :=
  walked.foldl remapStep ([], [])

/-- The index sequence walked by `extractSubMesh` for a partition: the
`for (let i = startIndex; i < startIndex + count; i++)` reads of
`srcIndices[i]` (out-of-range reads, which do not occur for a well-formed
partition, are modelled as 0). -/
def walkedIndices (srcIndices : List ℕ) (startIndex count : ℕ) : List ℕ :=
  (List.range' startIndex count).map fun i => srcIndices.getD i 0

/-- The remap computed by `extractSubMesh` for the partition
`[startIndex, startIndex + count)` of `srcIndices`. -/
def extractSubMeshRemap (srcIndices : List ℕ) (startIndex count : ℕ) :
    List (ℕ × ℕ) × List ℕ :=
  buildRemap (walkedIndices srcIndices startIndex count)

/-- Spec-side: the distinct values of `l` in order of first appearance. -/
def firstOccFrom (seen : List ℕ) (l : List ℕ) : List ℕ :=
  l.foldl (fun acc x => if x ∈ acc then acc else acc ++ [x]) seen

/-- The distinct values of `l` in order of first appearance. -/
def firstOcc (l : List ℕ) : List ℕ :=
  firstOccFrom [] l

/-- Decimal rendering of a natural number, digit characters accumulated
from the least-significant end (the rendering used by JS for integral
values inside template literals and `toFixed` output).  `fuel` is a
termination device; it never runs out when `n < fuel`. -/
def natCharsGo : ℕ → ℕ → List Char → List Char
  | 0, _, acc => acc
  | fuel + 1, n, acc =>
    if n < 10 then Nat.digitChar n :: acc
    else natCharsGo fuel (n / 10) (Nat.digitChar (n % 10) :: acc)

/-- The decimal digit string of `n`. -/
def natChars (n : ℕ) : List Char :=
  natCharsGo (n + 1) n []

/-- Left-pad a digit string with zeros to `d` characters (the padding
`toFixed` applies to a fractional part shorter than the precision). -/
def padZeros (d : ℕ) (s : List Char) : List Char :=
  List.replicate (d - s.length) '0' ++ s

/-- `x.toFixed(d)` for `|x| < 10^21`, modelled over `ℚ`: render the sign,
then the integer `n` closest to `|x| · 10^d` (ties away from zero, per the
ECMAScript "larger n" rule) as integer digits, a dot, and `d` fractional
digits. -/
def jsToFixed (q : ℚ) (d : ℕ) : List Char :=
  let sign : List Char := if q < 0 then ['-'] else []
  let n : ℕ := (⌊|q| * 10 ^ d + 1 / 2⌋).toNat
  sign ++ natChars (n / 10 ^ d) ++ '.' :: padZeros d (natChars (n % 10 ^ d))

/-- `s.replace(/(\.\d*?)0+$/, "$1")` on the shapes at hand: the regex
matches exactly when the string ends in a non-empty run of `'0'`s preceded
(through digits only) by a `'.'`; the replacement drops that trailing run.
Scanning from the right: strip the maximal `'0'` run, check that what
follows backwards is digits and then a `'.'`. -/
def stripTrailingZeros (s : List Char) : List Char :=
  let r := s.reverse
  let zs := r.takeWhile (fun c => c == '0')
  let rest := r.drop zs.length
  let ds := rest.takeWhile (fun c => c.isDigit)
  if zs ≠ [] ∧ (rest.drop ds.length).head? = some '.' then rest.reverse else s

/-- `s.replace(/\.$/, ".0")`: append a `'0'` when the string ends in `'.'`. -/
def dotToDotZero (s : List Char) : List Char :=
  if s.getLast? = some '.' then s ++ ['0'] else s

/-- The numeric formatter `f` of the YDR XML generator
(`src/unnamed/part_002` lines 311–317): integral values render via
`toFixed(1)`; other values via `toFixed(7)` with trailing zeros stripped
but never past the first fractional digit.  `Number.isInteger` on a value
exactly representable as a double corresponds to `q.den = 1`. -/
def f (q : ℚ) : List Char :=
  if q.den = 1 then jsToFixed q 1
  else dotToDotZero (stripTrailingZeros (jsToFixed q 7))

/-- The number of fractional digits of a rendered numeral: the length of
the maximal suffix not containing `'.'`. -/
def fracLen (s : List Char) : ℕ :=
  (s.reverse.takeWhile (fun c => c ≠ '.')).length

/-- One global single-character replacement
(`s.replace(/c/g, repl)` for a single character `c`). -/
def replaceChar (target : Char) (repl : List Char) (s : List Char) : List Char :=
  s.flatMap fun c => if c = target then repl else [c]

/-- `escXml` from `src/unnamed/part_002` lines 319–321: four chained global
replacements, `&` first. -/
def escXml (s : List Char) : List Char :=
  replaceChar '"' ['&', 'q', 'u', 'o', 't', ';']
    (replaceChar '>' ['&', 'g', 't', ';']
      (replaceChar '<' ['&', 'l', 't', ';']
        (replaceChar '&' ['&', 'a', 'm', 'p', ';'] s)))

/-- Claim-side single-pass escaper: what each input character contributes
to the output. -/
def escChar (c : Char) : List Char :=
  if c = '&' then ['&', 'a', 'm', 'p', ';']
  else if c = '<' then ['&', 'l', 't', ';']
  else if c = '>' then ['&', 'g', 't', ';']
  else if c = '"' then ['&', 'q', 'u', 'o', 't', ';']
  else [c]

/-- The extension-stripping step of `sanitizeTextureName`
(`filename.replace(/\.[^/.]+$/, "")`): remove a final `.segment` whose
segment is non-empty and free of `'.'` and `'/'`. -/
def stripExt (s : List Char) : List Char :=
  let r := s.reverse
  let seg := r.takeWhile fun c => !(c == '.') && !(c == '/')
  if seg ≠ [] ∧ (r.drop seg.length).head? = some '.' then
    (r.drop (seg.length + 1)).reverse
  else s

/-- Character-level effect of
`.replace(/[^a-zA-Z0-9_]/g, "_").toLowerCase()`. -/
def sanitizeOne (c : Char) : Char :=
  if ('a' ≤ c ∧ c ≤ 'z') ∨ ('A' ≤ c ∧ c ≤ 'Z') ∨ ('0' ≤ c ∧ c ≤ '9') ∨ c = '_' then
    c.toLower
  else '_'

/-- `sanitizeTextureName` from `src/unnamed/part_002` lines 304–309: strip
the extension, replace every character outside `[a-zA-Z0-9_]` with `'_'`,
lowercase. -/
def sanitizeTextureName (filename : String) : String :=
  String.mk ((stripExt filename.toList).map sanitizeOne)

/-- `TextureEntry` from `src/unnamed/part_002` lines 14–21. -/
structure TexEntry where
  name : String
  samplerName : String
  width : ℕ
  height : ℕ
  format : DdsFormat
  fileName : String
deriving DecidableEq, Repr

/-- A `MaterialConfig` as consumed by the serializer and exporter: a name,
a shader name, and the sampler-slot → assigned source file mapping
(`mat.textures`, with `none` for an unassigned slot / missing file). -/
structure MaterialC where
  name : String
  shaderName : String
  textures : List (String × Option String)
deriving DecidableEq, Repr

/-- The texture-parameter resolution of `generateYdrXml`
(`src/unnamed/part_002` lines 107–117): a first `find` keyed on sampler
name and the positional condition
`materials.indexOf(mat) === textures.indexOf(t) − textures.findIndex(tt ⇒ tt.samplerName === tp.name)`,
falling back (`||`) to the name-based `find` on the material's assigned
file for that slot.  JS `findIndex` yields −1 when no entry matches, but
then the first conjunct is false for every `t`, as here with `findIdx`
returning the length; `indexOf` compares by object identity in JS and by
structural equality here, which agree when entries are pairwise distinct. -/
def resolveTexParam (materials : List MaterialC) (textures : List TexEntry)
    (mat : MaterialC) (tpName : String) : Option TexEntry :=
  (textures.find? fun t =>
    (t.samplerName == tpName) &&
      ((materials.indexOf mat : ℤ) ==
        (textures.indexOf t : ℤ) -
          (textures.findIdx fun tt => tt.samplerName == tpName : ℤ))).orElse
    fun _ =>
      textures.find? fun t =>
        match (mat.textures.lookup tpName).join with
        | none => false
        | some fileName =>
          (t.name == sanitizeTextureName fileName) && (t.samplerName == tpName)

/-- The texture-parameter block emitted for one material: one item per
declared texture parameter, in the shader definition's declared order
(`for (const tp of shaderDef.textureParams)`), each holding the resolved
entry (`none` renders as the empty-name placeholder). -/
def emitTextureParams (materials : List MaterialC) (textures : List TexEntry)
    (mat : MaterialC) (tpNames : List String) : List (String × Option TexEntry) :=
  tpNames.map fun tp => (tp, resolveTexParam materials textures mat tp)

/-- Claim-side name-based rule: the entry whose sanitized source name and
sampler-slot name match the material's assignment for that slot. -/
def nameBasedLookup (textures : List TexEntry) (mat : MaterialC)
    (tpName : String) : Option TexEntry :=
  match (mat.textures.lookup tpName).join with
  | none => none
  | some fileName =>
    textures.find? fun t =>
      (t.name == sanitizeTextureName fileName) && (t.samplerName == tpName)

/-- Result of one `encodeToDds` call as seen by the exporter. -/
structure EncRes where
  width : ℕ
  height : ℕ
  format : DdsFormat
  dds : List ℕ
deriving DecidableEq, Repr

/-- The accumulating state of the texture loop of `exportYdr`
(`src/lib/export/exporter.ts` lines 26–77): `textureEntries`, `ddsFiles`,
and the `processedTextures` map (association list keyed by sanitized
texture name, insertion at the tail). -/
structure ExportState where
  entries : List TexEntry
  dds : List (String × List ℕ)
  processed : List (String × TexEntry)
deriving DecidableEq, Repr

/-- One iteration of the texture loop of `exportYdr` for an occurrence
`(samplerName, assigned file)`: skip unassigned slots; reuse an already
processed texture of the same sanitized name (pushing a copy of the
existing entry with this occurrence's sampler name); otherwise encode,
and on failure skip the texture while leaving all state unchanged
(the `try`/`catch` of lines 57–75). -/
def texStep (encode : String → Except String EncRes) (st : ExportState)
    (occ : String × Option String) : ExportState :=
  match occ.2 with
  | none => st
  | some fileName =>
    let texName := sanitizeTextureName fileName
    let ddsFileName := texName ++ ".dds"
    match st.processed.lookup texName with
    | some existing =>
      { st with entries := st.entries ++ [{ existing with samplerName := occ.1 }] }
    | none =>
      match encode fileName with
      | Except.error _ => st
      | Except.ok r =>
        let entry : TexEntry := ⟨texName, occ.1, r.width, r.height, r.format, ddsFileName⟩
        ⟨st.entries ++ [entry], st.dds ++ [(ddsFileName, r.dds)],
          st.processed ++ [(texName, entry)]⟩

/-- What `exportYdr` hands on after the texture loop: the Texture Entry
list passed to `generateYdrXml` and the DDS files passed to packaging. -/
structure ExportOut where
  serializerTextures : List TexEntry
  ddsFiles : List (String × List ℕ)
deriving DecidableEq, Repr

/-- The texture-conversion phase of `exportYdr`: the nested
material × slot loop, followed by the serializer invocation with the
accumulated entries.  `encode` stands for `encodeToDds` on the named
source file. -/
def exportYdrTextures (encode : String → Except String EncRes)
    (materials : List MaterialC) : ExportOut :=
  let st := materials.foldl (fun st mat => mat.textures.foldl (texStep encode) st)
    (⟨[], [], []⟩ : ExportState)
  ⟨st.entries, st.dds⟩

/-- Unassign every slot of every material whose assigned file has sanitized
name `n` (the comparison batch for the omission claim: a texture whose
compression always fails behaves as if never assigned). -/
def removeTexByName (n : String) (materials : List MaterialC) : List MaterialC :=
  materials.map fun m =>
    { m with
      textures := m.textures.map fun slot =>
        (slot.1,
          match slot.2 with
          | some fileName => if sanitizeTextureName fileName = n then none else some fileName
          | none => none) }

/-- A geometry group of `extractModelData` (`geo.groups` element):
`{ start, count, materialIndex }`. -/
structure GroupG where
  start : ℕ
  count : ℕ
  materialIndex : Option ℕ
deriving DecidableEq, Repr

/-- A drawable node of the traversed scene as consumed by
`extractModelData` (`src/lib/parsers/model-parser.ts` lines 58–121): its
materials' names (`""` models a material without a name, which is falsy in
`mat && mat.name`; an absent material is an out-of-range index), its
geometry groups, and its (possibly synthesized) triangle index list. -/
structure MeshNode where
  mats : List String
  groups : List GroupG
  indices : List ℕ
deriving DecidableEq, Repr

/-- `geo.groups.length > 0 ? geo.groups : [{ start: 0, count: geo.index!.count, materialIndex: 0 }]`. -/
def effGroups (node : MeshNode) : List GroupG :=
  if node.groups = [] then [⟨0, node.indices.length, some 0⟩] else node.groups

/-- The material-name resolution of lines 89–91:
`materials[matIdx] || materials[0]` falls back to the first material only
when the index is out of range; a present material with an empty name is
still falsy in `mat && mat.name` and receives the synthetic name
`Material_<materialNames.length>`. -/
def resolveMatName (mats : List String) (matIdx : ℕ) (curLen : ℕ) : String :=
  match (mats.get? matIdx).orElse fun _ => mats.get? 0 with
  | some nm => if nm ≠ "" then nm else "Material_" ++ String.mk (natChars curLen)
  | none => "Material_" ++ String.mk (natChars curLen)

/-- Processing of one drawable node by `extractModelData`: for each
effective group, resolve and register the material name (lines 93–97),
then extract the sub-mesh and push it when non-null (`vertexRemap`
non-empty).  State: `(materialNames, pushed mesh count)`. -/
def processNode (st : List String × ℕ) (node : MeshNode) : List String × ℕ :=
  (effGroups node).foldl
    (fun st g =>
      let matIdx := g.materialIndex.getD 0
      let matName := resolveMatName node.mats matIdx st.1.length
      let names := if matName ∈ st.1 then st.1 else st.1 ++ [matName]
      let pushed :=
        if (extractSubMeshRemap node.indices g.start g.count).1 ≠ [] then st.2 + 1
        else st.2
      (names, pushed))
    st

/-- `extractModelData` (lines 58–121), projected onto the claim-relevant
outputs: traverse the nodes accumulating material names and pushed meshes,
substitute `["default"]` for an empty name list (lines 107–109), and fail
with the `No mesh geometry found` error when no mesh was pushed
(lines 112–114); otherwise return the material-name list of the Model. -/
def extractModelData (nodes : List MeshNode) : Except String (List String) :=
  let st := nodes.foldl processNode ([], 0)
  let names := if st.1.isEmpty then ["default"] else st.1
  if st.2 = 0 then Except.error "No mesh geometry found in the imported model."
  else Except.ok names

/-- Total number of effective geometry groups across all nodes. -/
def totalGroups (nodes : List MeshNode) : ℕ :=
  (nodes.map fun n => (effGroups n).length).sum

/-- Decimal parsing, inverse to `natChars` (proof device for injectivity
of rendered decimal numerals). -/
def parseDigits (cs : List Char) : ℕ :=
  cs.foldl (fun a c => 10 * a + (c.toNat - 48)) 0

/-- The synthetic material name `Material_<k>`. -/
def synthName (k : ℕ) : String :=
  "Material_" ++ String.mk (natChars k)

/-- A texture entry as the exporter builds it for sanitized name `nm` and
sampler slot `sam` (4×4 DXT1; only name and sampler matter for matching). -/
def c4Entry (nm sam : String) : TexEntry :=
  ⟨nm, sam, 4, 4, DdsFormat.DXT1, nm ++ ".dds"⟩

/-- First material of the matching scenario: two assigned slots. -/
def c4Mat0 : MaterialC :=
  ⟨"m0", "default", [("DiffuseSampler", some "tex0a.png"), ("BumpSampler", some "tex0b.png")]⟩

/-- Second material of the matching scenario. -/
def c4Mat1 : MaterialC :=
  ⟨"m1", "default", [("DiffuseSampler", some "tex1a.png"), ("BumpSampler", some "tex1b.png")]⟩

/-- Third material of the matching scenario. -/
def c4Mat2 : MaterialC :=
  ⟨"m2", "default", [("DiffuseSampler", some "tex2a.png"), ("BumpSampler", some "tex2b.png")]⟩

/-- The material list of the matching scenario. -/
def c4Materials : List MaterialC :=
  [c4Mat0, c4Mat1, c4Mat2]

/-- The texture-entry list the exporter produces for `c4Materials` (one
entry per assigned material × slot, in iteration order). -/
def c4Textures : List TexEntry :=
  [c4Entry "tex0a" "DiffuseSampler", c4Entry "tex0b" "BumpSampler",
    c4Entry "tex1a" "DiffuseSampler", c4Entry "tex1b" "BumpSampler",
    c4Entry "tex2a" "DiffuseSampler", c4Entry "tex2b" "BumpSampler"]

theorem pow2Loop_pow (n : ℕ) :
    ∀ (fuel j : ℕ), n - 2 ^ j ≤ fuel →
      pow2Loop n (2 ^ j) = 2 ^ max j (Nat.clog 2 n) := by
  intro fuel
  induction fuel with
  | zero =>
    intro j h
    have hle : n ≤ 2 ^ j := by omega
    have hclog : Nat.clog 2 n ≤ j := (Nat.le_pow_iff_clog_le (by norm_num)).1 hle
    rw [pow2Loop]
    rw [if_neg (by positivity), if_neg (by omega), Nat.max_eq_left hclog]
  | succ fuel ih =>
    intro j h
    rw [pow2Loop]
    rw [if_neg (by positivity)]
    by_cases hlt : 2 ^ j < n
    · rw [if_pos hlt]
      have h2 : (2 : ℕ) * 2 ^ j = 2 ^ (j + 1) := by ring
      have hp : 0 < 2 ^ j := Nat.pos_pow_of_pos j (by norm_num)
      have hfuel : n - 2 ^ (j + 1) ≤ fuel := by
        have : 2 ^ (j + 1) = 2 ^ j + 2 ^ j := by ring
        omega
      rw [h2, ih (j + 1) hfuel]
      have hnot : ¬ Nat.clog 2 n ≤ j := by
        intro hc
        exact absurd ((Nat.le_pow_iff_clog_le (by norm_num)).2 hc) (by omega)
      have hj1 : j + 1 ≤ Nat.clog 2 n := by omega
      rw [Nat.max_eq_right hj1, Nat.max_eq_right (by omega)]
    · rw [if_neg hlt]
      have hclog : Nat.clog 2 n ≤ j :=
        (Nat.le_pow_iff_clog_le (by norm_num)).1 (by omega)
      rw [Nat.max_eq_left hclog]

theorem pow2Loop_one (n : ℕ) :
    pow2Loop n 1 = 2 ^ Nat.clog 2 n := by
  have := pow2Loop_pow n (n - 1) 0 (by simp)
  simpa using this

/-- C2: for every positive integer `n`, the codec's power-of-two rounding
function returns the next power of two `≥ n`, except that it returns the
next-lower power when `n` is strictly closer to the lower power and the
lower power is `≥ 4`; in particular `258 ↦ 256`, `5 ↦ 4`, `3 ↦ 4`. -/
theorem nearestPowerOf2_claim (n : ℕ) (hn : 0 < n) :
    nearestPowerOf2 n = claimNearestPow2 n ∧
    nearestPowerOf2 258 = 256 ∧ nearestPowerOf2 5 = 4 ∧ nearestPowerOf2 3 = 4 := by
  refine ⟨?_, by simp [nearestPowerOf2, pow2Loop],
    by simp [nearestPowerOf2, pow2Loop], by simp [nearestPowerOf2, pow2Loop]⟩
  simp only [nearestPowerOf2, claimNearestPow2]
  rw [if_neg (by omega : ¬ n = 0), pow2Loop_one]

/-- Witness for `nearestPowerOf2_claim` at `n = 7`. -/
theorem nearestPowerOf2_claim_witness :
    0 < 7 ∧ (nearestPowerOf2 7 = claimNearestPow2 7 ∧
      nearestPowerOf2 258 = 256 ∧ nearestPowerOf2 5 = 4 ∧ nearestPowerOf2 3 = 4) :=
  ⟨by norm_num, nearestPowerOf2_claim 7 (by norm_num)⟩

theorem hasAlphaAux_iff (data : List ℕ) :
    ∀ (fuel i : ℕ), data.length - i ≤ fuel →
      (hasAlphaAux data i = true ↔
        ∃ j, i ≤ j ∧ j < data.length ∧ (j - i) % 4 = 0 ∧ data.getD j 0 < 250) := by
  intro fuel
  induction fuel with
  | zero =>
    intro i h
    rw [hasAlphaAux, dif_neg (by omega)]
    simp only [Bool.false_eq_true, false_iff]
    rintro ⟨j, hj1, hj2, -, -⟩
    omega
  | succ fuel ih =>
    intro i h
    rw [hasAlphaAux]
    by_cases hi : i < data.length
    · rw [dif_pos hi]
      by_cases hv : data.get ⟨i, hi⟩ < 250
      · rw [if_pos hv]
        simp only [true_iff]
        refine ⟨i, le_refl i, hi, by omega, ?_⟩
        rw [List.getD_eq_getElem _ _ hi]
        simpa using hv
      · rw [if_neg hv, ih (i + 4) (by omega)]
        constructor
        · rintro ⟨j, hj1, hj2, hj3, hj4⟩
          exact ⟨j, by omega, hj2, by omega, hj4⟩
        · rintro ⟨j, hj1, hj2, hj3, hj4⟩
          have hne : j ≠ i := by
            rintro rfl
            rw [List.getD_eq_getElem _ _ hj2] at hj4
            exact hv (by simpa using hj4)
          exact ⟨j, by omega, hj2, by omega, hj4⟩
    · rw [dif_neg hi]
      simp only [Bool.false_eq_true, false_iff]
      rintro ⟨j, hj1, hj2, -, -⟩
      omega

theorem hasAlpha_iff (data : List ℕ) :
    hasAlpha data = true ↔
      ∃ i, i < data.length ∧ i % 4 = 3 ∧ data.getD i 0 < 250 := by
  rw [hasAlpha, hasAlphaAux_iff data data.length 3 (by omega)]
  constructor
  · rintro ⟨j, hj1, hj2, hj3, hj4⟩
    exact ⟨j, hj2, by omega, hj4⟩
  · rintro ⟨j, hj1, hj2, hj3⟩
    exact ⟨j, by omega, hj1, by omega, hj3⟩

/-- C3: with no explicit override, the codec selects the alpha-capable
(DXT5) mode iff some pixel's alpha byte (index `≡ 3 mod 4`) is `< 250`,
and the opaque (DXT1) mode otherwise; an explicit override is used
regardless of the alpha channel. -/
theorem chooseFormat_claim (data : List ℕ) :
    (chooseFormat none data = DdsFormat.DXT5 ↔
      ∃ i, i < data.length ∧ i % 4 = 3 ∧ data.getD i 0 < 250) ∧
    (chooseFormat none data = DdsFormat.DXT1 ↔
      ¬ ∃ i, i < data.length ∧ i % 4 = 3 ∧ data.getD i 0 < 250) ∧
    (∀ fmt, chooseFormat (some fmt) data = fmt) := by
  have h := hasAlpha_iff data
  rcases hb : hasAlpha data with - | -
  · rw [hb] at h
    simp only [Bool.false_eq_true, false_iff] at h
    refine ⟨?_, ?_, fun fmt => rfl⟩
    · simp only [chooseFormat, Option.getD_none, hb, Bool.false_eq_true, if_false]
      exact iff_of_false (by decide) h
    · simp only [chooseFormat, Option.getD_none, hb, Bool.false_eq_true, if_false]
      exact iff_of_true trivial h
  · rw [hb] at h
    simp only [true_iff] at h
    refine ⟨?_, ?_, fun fmt => rfl⟩
    · simp only [chooseFormat, Option.getD_none, hb, if_true]
      exact iff_of_true trivial h
    · simp only [chooseFormat, Option.getD_none, hb, if_true]
      exact iff_of_false (by decide) (not_not_intro h)

theorem writeU32_get_out (b : ByteBuf) (off v i : ℕ)
    (h : i < off ∨ off + 3 < i) : (writeU32 b off v).get i = b.get i := by
  simp only [writeU32]
  split_ifs <;> omega

theorem readU32_writeU32_ne (b : ByteBuf) (off v off' : ℕ)
    (h : off' + 4 ≤ off ∨ off + 4 ≤ off') :
    readU32 (writeU32 b off v) off' = readU32 b off' := by
  unfold readU32
  rw [writeU32_get_out b off v off' (by omega),
    writeU32_get_out b off v (off' + 1) (by omega),
    writeU32_get_out b off v (off' + 2) (by omega),
    writeU32_get_out b off v (off' + 3) (by omega)]

theorem readU32_writeU32_self (b : ByteBuf) (off v : ℕ) :
    readU32 (writeU32 b off v) off = v % 2 ^ 32 := by
  simp only [readU32, writeU32]
  have h : v % 2 ^ 32 < 2 ^ 32 := Nat.mod_lt _ (by norm_num)
  split_ifs <;> omega

theorem readU32_copyFrom_lt (b : ByteBuf) (data : List ℕ) (start off : ℕ)
    (h : off + 4 ≤ start) :
    readU32 (ByteBuf.copyFrom b data start) off = readU32 b off := by
  simp only [readU32, ByteBuf.copyFrom]
  split_ifs <;> omega

theorem buildDds_read0 (compressedData : List ℕ) (w h : ℕ) (format : DdsFormat) :
    readU32 (buildDdsFile compressedData w h format) 0 = DDS_MAGIC := by
  simp only [buildDdsFile]
  rw [readU32_copyFrom_lt _ _ _ _ (by norm_num),
    readU32_writeU32_ne _ _ _ _ (by norm_num),
    readU32_writeU32_ne _ _ _ _ (by norm_num),
    readU32_writeU32_ne _ _ _ _ (by norm_num),
    readU32_writeU32_ne _ _ _ _ (by norm_num),
    readU32_writeU32_ne _ _ _ _ (by norm_num),
    readU32_writeU32_ne _ _ _ _ (by norm_num),
    readU32_writeU32_ne _ _ _ _ (by norm_num),
    readU32_writeU32_ne _ _ _ _ (by norm_num),
    readU32_writeU32_ne _ _ _ _ (by norm_num),
    readU32_writeU32_ne _ _ _ _ (by norm_num),
    readU32_writeU32_ne _ _ _ _ (by norm_num),
    readU32_writeU32_self]
  norm_num [DDS_MAGIC]

theorem buildDds_read12 (compressedData : List ℕ) (w h : ℕ) (format : DdsFormat)
    (hh : h < 2 ^ 32) :
    readU32 (buildDdsFile compressedData w h format) 12 = h := by
  simp only [buildDdsFile]
  rw [readU32_copyFrom_lt _ _ _ _ (by norm_num),
    readU32_writeU32_ne _ _ _ _ (by norm_num),
    readU32_writeU32_ne _ _ _ _ (by norm_num),
    readU32_writeU32_ne _ _ _ _ (by norm_num),
    readU32_writeU32_ne _ _ _ _ (by norm_num),
    readU32_writeU32_ne _ _ _ _ (by norm_num),
    readU32_writeU32_ne _ _ _ _ (by norm_num),
    readU32_writeU32_ne _ _ _ _ (by norm_num),
    readU32_writeU32_ne _ _ _ _ (by norm_num),
    readU32_writeU32_self]
  exact Nat.mod_eq_of_lt hh

theorem buildDds_read16 (compressedData : List ℕ) (w h : ℕ) (format : DdsFormat)
    (hw : w < 2 ^ 32) :
    readU32 (buildDdsFile compressedData w h format) 16 = w := by
  simp only [buildDdsFile]
  rw [readU32_copyFrom_lt _ _ _ _ (by norm_num),
    readU32_writeU32_ne _ _ _ _ (by norm_num),
    readU32_writeU32_ne _ _ _ _ (by norm_num),
    readU32_writeU32_ne _ _ _ _ (by norm_num),
    readU32_writeU32_ne _ _ _ _ (by norm_num),
    readU32_writeU32_ne _ _ _ _ (by norm_num),
    readU32_writeU32_ne _ _ _ _ (by norm_num),
    readU32_writeU32_ne _ _ _ _ (by norm_num),
    readU32_writeU32_self]
  exact Nat.mod_eq_of_lt hw

theorem buildDds_read84 (compressedData : List ℕ) (w h : ℕ) (format : DdsFormat) :
    readU32 (buildDdsFile compressedData w h format) 84 = fourCCOf format := by
  simp only [buildDdsFile]
  rw [readU32_copyFrom_lt _ _ _ _ (by norm_num),
    readU32_writeU32_ne _ _ _ _ (by norm_num),
    readU32_writeU32_self]
  cases format <;> norm_num [fourCCOf, FOURCC_DXT1, FOURCC_DXT5]

/-- C6: building a DDS container from any width, height, payload and
format, then decoding its header, recovers the same width (offset 16),
height (offset 12) and format fourCC (offset 84): the read-back of
`getDdsDimensions` and the pass-through format detection are a left
inverse of `buildDdsFile` on `{width, height, format}`.  The width and
height bounds reflect that the header fields are 32-bit. -/
theorem buildDds_roundTrip (compressedData : List ℕ) (w h : ℕ) (format : DdsFormat)
    (hw : w < 2 ^ 32) (hh : h < 2 ^ 32) :
    getDdsDimensions (buildDdsFile compressedData w h format) = Except.ok (w, h) ∧
    readU32 (buildDdsFile compressedData w h format) 84 = fourCCOf format ∧
    detectDdsFormat (buildDdsFile compressedData w h format) = format := by
  refine ⟨?_, buildDds_read84 compressedData w h format, ?_⟩
  · unfold getDdsDimensions
    rw [buildDds_read0, buildDds_read12 _ _ _ _ hh, buildDds_read16 _ _ _ _ hw,
      if_neg (by simp)]
  · unfold detectDdsFormat
    rw [buildDds_read84]
    cases format <;> norm_num [fourCCOf, FOURCC_DXT1, FOURCC_DXT5]

/-- Witness for `buildDds_roundTrip` at a 4×4 DXT1 container. -/
theorem buildDds_roundTrip_witness :
    getDdsDimensions (buildDdsFile [1, 2, 3] 4 4 DdsFormat.DXT1) = Except.ok (4, 4) ∧
    readU32 (buildDdsFile [1, 2, 3] 4 4 DdsFormat.DXT1) 84 = fourCCOf DdsFormat.DXT1 ∧
    detectDdsFormat (buildDdsFile [1, 2, 3] 4 4 DdsFormat.DXT1) = DdsFormat.DXT1 :=
  buildDds_roundTrip [1, 2, 3] 4 4 DdsFormat.DXT1 (by norm_num) (by norm_num)

theorem encodeBC1Block_length (block : List ℕ) : (encodeBC1Block block).length = 8 :=
  rfl

theorem encodeBC3AlphaBlock_length (block : List ℕ) :
    (encodeBC3AlphaBlock block).length = 8 :=
  rfl

theorem length_flatMap_const {α β : Type} (l : List α) (g : α → List β) (k : ℕ)
    (h : ∀ x ∈ l, (g x).length = k) : (l.flatMap g).length = l.length * k := by
  induction l with
  | nil => simp
  | cons a t ih =>
    rw [List.flatMap_cons, List.length_append, h a (by simp),
      ih (fun x hx => h x (List.mem_cons_of_mem a hx)), List.length_cons]
    ring

theorem compressBC1_length (data : List ℕ) (w h : ℕ) :
    (compressBC1 data w h).length = blocksOf w * blocksOf h * 8 := by
  have hin : ∀ row : ℕ,
      ((List.range (blocksOf w)).flatMap fun col =>
        encodeBC1Block (extractBlock data w h (col * 4) (row * 4))).length =
        blocksOf w * 8 := by
    intro row
    rw [length_flatMap_const _ _ 8 (fun col _ => encodeBC1Block_length _),
      List.length_range]
  rw [compressBC1, length_flatMap_const _ _ (blocksOf w * 8) (fun row _ => hin row),
    List.length_range]
  ring

theorem compressBC3_length (data : List ℕ) (w h : ℕ) :
    (compressBC3 data w h).length = blocksOf w * blocksOf h * 16 := by
  have hin : ∀ row : ℕ,
      ((List.range (blocksOf w)).flatMap fun col =>
        encodeBC3AlphaBlock (extractBlock data w h (col * 4) (row * 4)) ++
          encodeBC1Block (extractBlock data w h (col * 4) (row * 4))).length =
        blocksOf w * 16 := by
    intro row
    have hb : ∀ col : ℕ,
        (encodeBC3AlphaBlock (extractBlock data w h (col * 4) (row * 4)) ++
          encodeBC1Block (extractBlock data w h (col * 4) (row * 4))).length = 16 := by
      intro col
      rw [List.length_append, encodeBC3AlphaBlock_length, encodeBC1Block_length]
    rw [length_flatMap_const _ _ 16 (fun col _ => hb col), List.length_range]
  rw [compressBC3, length_flatMap_const _ _ (blocksOf w * 16) (fun row _ => hin row),
    List.length_range]
  ring

theorem compressFor_length (format : DdsFormat) (data : List ℕ) (w h : ℕ) :
    (compressFor format data w h).length =
      blocksOf w * blocksOf h * blockSize format := by
  cases format
  · simpa [compressFor, blockSize] using compressBC1_length data w h
  · simpa [compressFor, blockSize] using compressBC3_length data w h

theorem buildDds_size (d : List ℕ) (w h : ℕ) (format : DdsFormat) :
    (buildDdsFile d w h format).size = 128 + d.length :=
  rfl

theorem buildDds_read20 (d : List ℕ) (w h : ℕ) (format : DdsFormat) :
    readU32 (buildDdsFile d w h format) 20 =
      (blocksOf w * blocksOf h * blockSize format) % 2 ^ 32 := by
  simp only [buildDdsFile]
  rw [readU32_copyFrom_lt _ _ _ _ (by norm_num),
    readU32_writeU32_ne _ _ _ _ (by norm_num),
    readU32_writeU32_ne _ _ _ _ (by norm_num),
    readU32_writeU32_ne _ _ _ _ (by norm_num),
    readU32_writeU32_ne _ _ _ _ (by norm_num),
    readU32_writeU32_ne _ _ _ _ (by norm_num),
    readU32_writeU32_ne _ _ _ _ (by norm_num),
    readU32_writeU32_self]

/-- C10: for width, height `≥ 1`, the container built from the compressed
payload has total byte length exactly
`128 + ⌈width/4⌉ ⋅ ⌈height/4⌉ ⋅ blockSize` (8 for DXT1, 16 for DXT5), and
the linear-size field at header offset 20 equals the payload's byte
length (the bound keeps the 32-bit field exact). -/
theorem buildDds_size_claim (data : List ℕ) (w h : ℕ) (format : DdsFormat)
    (hw : 1 ≤ w) (hh : 1 ≤ h)
    (hfit : blocksOf w * blocksOf h * blockSize format < 2 ^ 32) :
    (buildDdsFile (compressFor format data w h) w h format).size =
      128 + (w + 3) / 4 * ((h + 3) / 4) * blockSize format ∧
    readU32 (buildDdsFile (compressFor format data w h) w h format) 20 =
      (compressFor format data w h).length := by
  have hbw : blocksOf w = (w + 3) / 4 := by unfold blocksOf; omega
  have hbh : blocksOf h = (h + 3) / 4 := by unfold blocksOf; omega
  constructor
  · rw [buildDds_size, compressFor_length, hbw, hbh]
  · rw [buildDds_read20, Nat.mod_eq_of_lt hfit, compressFor_length]

/-- Witness for `buildDds_size_claim` at a 5×5 DXT5 texture. -/
theorem buildDds_size_claim_witness :
    (buildDdsFile (compressFor DdsFormat.DXT5 (List.replicate 100 7) 5 5) 5 5
        DdsFormat.DXT5).size =
      128 + (5 + 3) / 4 * ((5 + 3) / 4) * blockSize DdsFormat.DXT5 ∧
    readU32 (buildDdsFile (compressFor DdsFormat.DXT5 (List.replicate 100 7) 5 5) 5 5
        DdsFormat.DXT5) 20 =
      (compressFor DdsFormat.DXT5 (List.replicate 100 7) 5 5).length :=
  buildDds_size_claim (List.replicate 100 7) 5 5 DdsFormat.DXT5 (by norm_num)
    (by norm_num) (by norm_num [blocksOf, blockSize])

theorem replaceChar_cons (t : Char) (r : List Char) (x : Char) (l : List Char) :
    replaceChar t r (x :: l) = (if x = t then r else [x]) ++ replaceChar t r l := by
  simp [replaceChar]

theorem replaceChar_append (t : Char) (r a b' : List Char) :
    replaceChar t r (a ++ b') = replaceChar t r a ++ replaceChar t r b' := by
  simp [replaceChar]

/-- C8 (amended): the serializer's `escXml` entity-escapes exactly the four
characters `&`, `<`, `>`, `"` — the output is the concatenation, over the
input characters, of `&amp;` / `&lt;` / `&gt;` / `&quot;` for those four
and the character itself otherwise, so every occurrence of each of the
four appears entity-escaped in the output. -/
theorem escXml_claim (s : List Char) : escXml s = s.flatMap escChar := by
  induction s with
  | nil => rfl
  | cons c t ih =>
    rw [List.flatMap_cons, ← ih]
    unfold escXml
    rw [replaceChar_cons, replaceChar_append, replaceChar_append, replaceChar_append]
    congr 1
    by_cases h1 : c = '&'
    · subst h1; rfl
    rw [if_neg h1]
    by_cases h2 : c = '<'
    · subst h2; rfl
    by_cases h3 : c = '>'
    · subst h3; rfl
    by_cases h4 : c = '"'
    · subst h4; rfl
    simp [escChar, replaceChar, h1, h2, h3, h4]

/-- C8 counterexample: the apostrophe (code point 39), conventionally the
fifth XML-unsafe character, passes through `escXml` unescaped — the
serializer escapes four characters, not five. -/
theorem escXml_apostrophe_unescaped :
    escXml [Char.ofNat 39] = [Char.ofNat 39] ∧
    Char.ofNat 39 ∉ ['&', '<', '>', '"'] := by
  decide

/-- C4: evaluation at the failing input.  With three materials each
assigning `DiffuseSampler` and `BumpSampler`, the serializer resolves the
third material's parameters to the *second* material's entries (`tex1a`,
`tex1b`) through the positional first lookup, while the name-based rule
stated by the claim resolves `tex2a`; so the first lookup is not dead and
the matching is not purely name-based (parameters are still emitted in
declared order). -/
theorem resolveTexParam_code_bug :
    emitTextureParams c4Materials c4Textures c4Mat2 ["DiffuseSampler", "BumpSampler"] =
      [("DiffuseSampler", some (c4Entry "tex1a" "DiffuseSampler")),
        ("BumpSampler", some (c4Entry "tex1b" "BumpSampler"))] ∧
    nameBasedLookup c4Textures c4Mat2 "DiffuseSampler" =
      some (c4Entry "tex2a" "DiffuseSampler") ∧
    (c4Entry "tex1a" "DiffuseSampler").name ≠ (c4Entry "tex2a" "DiffuseSampler").name := by
  decide

theorem natCharsGo_eq (n : ℕ) : ∀ (fuel : ℕ) (acc : List Char), n < fuel →
    natCharsGo fuel n acc = natChars n ++ acc := by
  induction n using Nat.strong_induction_on with
  | _ n ih =>
    intro fuel acc hfuel
    match fuel, hfuel with
    | fuel + 1, hfuel =>
      by_cases h10 : n < 10
      · simp only [natChars, natCharsGo, if_pos h10]
        rfl
      · have hrec : n / 10 < n := Nat.div_lt_self (by omega) (by norm_num)
        simp only [natChars, natCharsGo, if_neg h10]
        rw [ih (n / 10) hrec fuel _ (by omega), ih (n / 10) hrec n _ (by omega)]
        simp

theorem natChars_rec (n : ℕ) :
    natChars n = if n < 10 then [Nat.digitChar n]
      else natChars (n / 10) ++ [Nat.digitChar (n % 10)] := by
  by_cases h10 : n < 10
  · simp only [natChars, natCharsGo, if_pos h10]
  · have hrec : n / 10 < n := Nat.div_lt_self (by omega) (by norm_num)
    simp only [natChars, natCharsGo, if_neg h10]
    rw [natCharsGo_eq (n / 10) n [Nat.digitChar (n % 10)] (by omega)]
    congr 1

theorem digitChar_toNat (d : ℕ) (hd : d < 10) : (Nat.digitChar d).toNat = 48 + d := by
  interval_cases d <;> rfl

theorem natChars_mem (n : ℕ) :
    ∀ c ∈ natChars n, ∃ d, d < 10 ∧ c = Nat.digitChar d := by
  induction n using Nat.strong_induction_on with
  | _ n ih =>
    rw [natChars_rec]
    by_cases h10 : n < 10
    · rw [if_pos h10]
      intro c hc
      simp only [List.mem_singleton] at hc
      exact ⟨n, h10, hc⟩
    · rw [if_neg h10]
      intro c hc
      rcases List.mem_append.1 hc with h | h
      · exact ih (n / 10) (Nat.div_lt_self (by omega) (by norm_num)) c h
      · simp only [List.mem_singleton] at h
        exact ⟨n % 10, Nat.mod_lt _ (by norm_num), h⟩

theorem natChars_ne_nil (n : ℕ) : natChars n ≠ [] := by
  rw [natChars_rec]
  by_cases h10 : n < 10
  · simp [if_pos h10]
  · simp [if_neg h10]

theorem parseDigits_natChars (n : ℕ) : parseDigits (natChars n) = n := by
  induction n using Nat.strong_induction_on with
  | _ n ih =>
    rw [natChars_rec]
    by_cases h10 : n < 10
    · rw [if_pos h10]
      simp [parseDigits, digitChar_toNat n h10]
    · rw [if_neg h10]
      have hrec : n / 10 < n := Nat.div_lt_self (by omega) (by norm_num)
      have hp := ih (n / 10) hrec
      simp only [parseDigits, List.foldl_append] at hp ⊢
      rw [hp, List.foldl_cons, List.foldl_nil,
        digitChar_toNat (n % 10) (Nat.mod_lt _ (by norm_num))]
      omega

theorem natChars_inj {m n : ℕ} (h : natChars m = natChars n) : m = n := by
  rw [← parseDigits_natChars m, h, parseDigits_natChars]

theorem synthName_inj {k k' : ℕ} (h : synthName k = synthName k') : k = k' := by
  have hd : ("Material_".data ++ natChars k) = ("Material_".data ++ natChars k') := by
    have := congrArg String.data h
    simpa [synthName, String.data] using this
  exact natChars_inj (List.append_cancel_left hd)

theorem synthName_ne_default (k : ℕ) : synthName k ≠ "default" := by
  intro h
  have hd := congrArg String.data h
  have hlen := congrArg List.length hd
  simp [synthName, String.data] at hlen

theorem resolveMatName_unnamed (mats : List String) (hmats : ∀ m ∈ mats, m = "")
    (i L : ℕ) : resolveMatName mats i L = synthName L := by
  unfold resolveMatName
  rcases h1 : mats.get? i with - | nm
  · rcases h0 : mats.get? 0 with - | nm
    · simp [Option.orElse, h0, synthName]
    · have : nm = "" := hmats nm (List.get?_mem h0)
      subst this
      simp [Option.orElse, h0, synthName]
  · have : nm = "" := hmats nm (List.get?_mem h1)
    subst this
    simp [Option.orElse, synthName]

theorem synthName_not_mem (L : ℕ) :
    synthName L ∉ (List.range L).map synthName := by
  intro h
  rcases List.mem_map.1 h with ⟨k, hk, he⟩
  have hkL := synthName_inj he
  have hlt := List.mem_range.1 hk
  omega

theorem groupsFold_names (mats : List String) (indices : List ℕ)
    (hmats : ∀ m ∈ mats, m = "") :
    ∀ (gs : List GroupG) (L c : ℕ),
      (gs.foldl
        (fun st g =>
          let matIdx := g.materialIndex.getD 0
          let matName := resolveMatName mats matIdx st.1.length
          let names := if matName ∈ st.1 then st.1 else st.1 ++ [matName]
          let pushed :=
            if (extractSubMeshRemap indices g.start g.count).1 ≠ [] then st.2 + 1
            else st.2
          (names, pushed))
        ((List.range L).map synthName, c)).1 =
      (List.range (L + gs.length)).map synthName := by
  intro gs
  induction gs with
  | nil =>
    intro L c
    simp
  | cons g gs ih =>
    intro L c
    rw [List.foldl_cons]
    simp only
    have hlen : ((List.range L).map synthName).length = L := by simp
    rw [hlen, resolveMatName_unnamed mats hmats _ L, if_neg (synthName_not_mem L)]
    have hr : (List.range L).map synthName ++ [synthName L] =
        (List.range (L + 1)).map synthName := by
      rw [List.range_succ, List.map_append, List.map_singleton]
    rw [hr, ih (L + 1) _]
    have harr : L + 1 + gs.length = L + (g :: gs).length := by
      simp
      omega
    rw [harr]

theorem processNode_names (node : MeshNode) (hmats : ∀ m ∈ node.mats, m = "")
    (L c : ℕ) :
    (processNode ((List.range L).map synthName, c) node).1 =
      (List.range (L + (effGroups node).length)).map synthName := by
  unfold processNode
  exact groupsFold_names node.mats node.indices hmats (effGroups node) L c

theorem nodesFold_names (nodes : List MeshNode)
    (hun : ∀ node ∈ nodes, ∀ m ∈ node.mats, m = "") :
    ∀ (L c : ℕ),
      (nodes.foldl processNode ((List.range L).map synthName, c)).1 =
        (List.range (L + totalGroups nodes)).map synthName := by
  induction nodes with
  | nil =>
    intro L c
    simp [totalGroups]
  | cons node nodes ih =>
    intro L c
    rw [List.foldl_cons]
    have h1 := processNode_names node (hun node (by simp)) L c
    have hpair : processNode ((List.range L).map synthName, c) node =
        ((List.range (L + (effGroups node).length)).map synthName,
          (processNode ((List.range L).map synthName, c) node).2) := by
      rw [← h1]
    rw [hpair, ih (fun n hn => hun n (by simp [hn])) (L + (effGroups node).length) _]
    have harr : L + (effGroups node).length + totalGroups nodes =
        L + totalGroups (node :: nodes) := by
      simp only [totalGroups, List.map_cons, List.sum_cons]
      omega
    rw [harr]

theorem effGroups_length_pos (node : MeshNode) : 0 < (effGroups node).length := by
  unfold effGroups
  split_ifs with h
  · simp
  · exact List.length_pos.2 h

/-- C9 (amended): in a scene whose materials all lack explicit names,
registered materials receive the synthetic names `Material_<k>` with `k`
the registration ordinal, in first-seen order — a successfully returned
Model's material-name list is exactly `Material_0 … Material_(g−1)` for
its `g` processed groups and never contains `"default"`; when the scene
has no materials at all (no drawable nodes), `extractModelData` fails with
the `No mesh geometry found` error instead of returning a Model carrying
`["default"]`. -/
theorem extractModelData_claim (nodes : List MeshNode)
    (hun : ∀ node ∈ nodes, ∀ m ∈ node.mats, m = "") :
    (∀ names, extractModelData nodes = Except.ok names →
      names = (List.range (totalGroups nodes)).map synthName ∧ "default" ∉ names) ∧
    (nodes = [] →
      extractModelData nodes =
        Except.error "No mesh geometry found in the imported model.") := by
  constructor
  · intro names hok
    cases nodes with
    | nil => simp [extractModelData] at hok
    | cons node rest =>
      have hnames : ((node :: rest).foldl processNode ([], 0)).1 =
          (List.range (totalGroups (node :: rest))).map synthName := by
        have h := nodesFold_names (node :: rest) hun 0 0
        simpa using h
      have hTpos : 0 < totalGroups (node :: rest) := by
        simp only [totalGroups, List.map_cons, List.sum_cons]
        have := effGroups_length_pos node
        omega
      have hfalse :
          ((List.range (totalGroups (node :: rest))).map synthName).isEmpty = false := by
        simp only [List.isEmpty_eq_false, ne_eq, List.map_eq_nil_iff,
          List.range_eq_nil]
        omega
      simp only [extractModelData, hnames, hfalse, Bool.false_eq_true,
        if_false] at hok
      by_cases h2 : ((node :: rest).foldl processNode ([], 0)).2 = 0
      · rw [if_pos h2] at hok
        simp at hok
      · rw [if_neg h2] at hok
        have hnm : ((List.range (totalGroups (node :: rest))).map synthName) = names :=
          Except.ok.inj hok
        refine ⟨hnm.symm, ?_⟩
        rw [← hnm]
        intro hmem
        rcases List.mem_map.1 hmem with ⟨k, -, hk⟩
        exact synthName_ne_default k hk
  · intro h
    subst h
    rfl

/-- Witness for `extractModelData_claim`: one mesh with a single unnamed
material slot. -/
theorem extractModelData_claim_witness :
    (∀ names, extractModelData [⟨[""], [⟨0, 3, some 0⟩], [0, 1, 2]⟩] = Except.ok names →
      names = (List.range (totalGroups [⟨[""], [⟨0, 3, some 0⟩], [0, 1, 2]⟩])).map synthName ∧
        "default" ∉ names) ∧
    ([(⟨[""], [⟨0, 3, some 0⟩], [0, 1, 2]⟩ : MeshNode)] = [] →
      extractModelData [⟨[""], [⟨0, 3, some 0⟩], [0, 1, 2]⟩] =
        Except.error "No mesh geometry found in the imported model.") :=
  extractModelData_claim [⟨[""], [⟨0, 3, some 0⟩], [0, 1, 2]⟩] (by decide)

/-- C9 counterexample: a model with one drawable mesh and no materials at
all returns `["Material_0"]` as its material-name list — the synthetic
`"default"` name does not appear in any returned Model (it is only pushed
on the error path, where no Model is returned). -/
theorem extractModelData_counterexample :
    extractModelData [⟨[], [⟨0, 3, some 0⟩], [0, 1, 2]⟩] = Except.ok ["Material_0"] ∧
    "default" ∉ ["Material_0"] :=
  ⟨rfl, by decide⟩

theorem append_dds_inj {a b : String} (h : a ++ ".dds" = b ++ ".dds") : a = b := by
  have hd := congrArg String.data h
  rw [String.data_append, String.data_append] at hd
  have hab := List.append_cancel_right hd
  cases a
  cases b
  exact congrArg String.mk hab

theorem texStep_skip_or_keep (encode : String → Except String EncRes) (n : String)
    (henc : ∀ file, sanitizeTextureName file = n →
      ∃ e, encode file = Except.error e)
    (st : ExportState)
    (hproc : ∀ p ∈ st.processed, p.1 ≠ n ∧ p.2.name = p.1)
    (hent : ∀ e ∈ st.entries, e.name ≠ n)
    (hdds : ∀ d ∈ st.dds, d.1 ≠ n ++ ".dds")
    (occ : String × Option String) :
    texStep encode st occ = texStep encode st
      (occ.1, match occ.2 with
        | some fileName =>
          if sanitizeTextureName fileName = n then none else some fileName
        | none => none) ∧
    ((∀ p ∈ (texStep encode st occ).processed, p.1 ≠ n ∧ p.2.name = p.1) ∧
      (∀ e ∈ (texStep encode st occ).entries, e.name ≠ n) ∧
      (∀ d ∈ (texStep encode st occ).dds, d.1 ≠ n ++ ".dds")) := by
  rcases occ with ⟨sam, fo⟩
  cases fo with
  | none => exact ⟨rfl, hproc, hent, hdds⟩
  | some file =>
    by_cases hs : sanitizeTextureName file = n
    · have hlook : st.processed.lookup n = none :=
        List.lookup_eq_none_iff.2 fun p hp => by
          simpa [bne_iff_ne] using ((hproc p hp).1).symm
      rcases henc file hs with ⟨e, he⟩
      constructor
      · simp only [texStep, hs, hlook, he, if_pos]
      · simp only [texStep, hs, hlook, he]
        exact ⟨hproc, hent, hdds⟩
    · refine ⟨by simp [hs], ?_⟩
      simp only [texStep]
      cases hlook : st.processed.lookup (sanitizeTextureName file) with
      | some existing =>
        have hmem : (sanitizeTextureName file, existing) ∈ st.processed := by
          rcases List.lookup_eq_some_iff.1 hlook with ⟨l1, l2, heq, -⟩
          rw [heq]
          simp
        have hex := hproc _ hmem
        refine ⟨hproc, ?_, hdds⟩
        intro e he
        rcases List.mem_append.1 he with h | h
        · exact hent e h
        · simp only [List.mem_singleton] at h
          subst h
          show ¬ existing.name = n
          rw [hex.2]
          exact hex.1
      | none =>
        cases hrec : encode file with
        | error e => exact ⟨hproc, hent, hdds⟩
        | ok r =>
          refine ⟨?_, ?_, ?_⟩
          · intro p hp
            rcases List.mem_append.1 hp with h | h
            · exact hproc p h
            · simp only [List.mem_singleton] at h
              subst h
              exact ⟨hs, rfl⟩
          · intro e he
            rcases List.mem_append.1 he with h | h
            · exact hent e h
            · simp only [List.mem_singleton] at h
              subst h
              exact hs
          · intro d hd
            rcases List.mem_append.1 hd with h | h
            · exact hdds d h
            · simp only [List.mem_singleton] at h
              subst h
              intro hcontra
              exact hs (append_dds_inj hcontra)

theorem texFold_skip_or_keep (encode : String → Except String EncRes) (n : String)
    (henc : ∀ file, sanitizeTextureName file = n →
      ∃ e, encode file = Except.error e) :
    ∀ (occs : List (String × Option String)) (st : ExportState),
      (∀ p ∈ st.processed, p.1 ≠ n ∧ p.2.name = p.1) →
      (∀ e ∈ st.entries, e.name ≠ n) →
      (∀ d ∈ st.dds, d.1 ≠ n ++ ".dds") →
      occs.foldl (texStep encode) st =
        (occs.map fun occ => ((occ.1 : String),
          match occ.2 with
          | some fileName =>
            if sanitizeTextureName fileName = n then none else some fileName
          | none => none)).foldl (texStep encode) st ∧
      (∀ e ∈ (occs.foldl (texStep encode) st).entries, e.name ≠ n) ∧
      (∀ d ∈ (occs.foldl (texStep encode) st).dds, d.1 ≠ n ++ ".dds") := by
  intro occs
  induction occs with
  | nil => exact fun st hp he hd => ⟨rfl, he, hd⟩
  | cons occ occs ih =>
    intro st hp he hd
    rcases texStep_skip_or_keep encode n henc st hp he hd occ with
      ⟨hstep, hproc', hent', hdds'⟩
    rcases ih (texStep encode st occ) hproc' hent' hdds' with ⟨hrec, hent2, hdds2⟩
    refine ⟨?_, hent2, hdds2⟩
    rw [List.map_cons, List.foldl_cons, List.foldl_cons, ← hstep, hrec]

theorem foldl_flatMap_eq {α β γ : Type} (l : List α) (g : α → List β)
    (step : γ → β → γ) (init : γ) :
    l.foldl (fun st x => (g x).foldl step st) init = (l.flatMap g).foldl step init := by
  induction l generalizing init with
  | nil => rfl
  | cons a t ih => rw [List.foldl_cons, List.flatMap_cons, List.foldl_append, ih]

/-- C7: a texture whose compression fails (its image cannot be decoded) is
omitted while the rest of the batch is still processed — the exporter's
result equals that of the batch with the failing texture unassigned — the
serializer is still invoked with the accumulated Texture Entry list (the
`serializerTextures` field) and the export completes, the failing texture
contributing no entry and no DDS file.  `n` is the failing texture's
sanitized name. -/
theorem exportYdr_failed_texture_omitted (encode : String → Except String EncRes)
    (materials : List MaterialC) (n : String)
    (henc : ∀ file, sanitizeTextureName file = n →
      ∃ e, encode file = Except.error e) :
    exportYdrTextures encode materials =
      exportYdrTextures encode (removeTexByName n materials) ∧
    (∀ e ∈ (exportYdrTextures encode materials).serializerTextures, e.name ≠ n) ∧
    (∀ d ∈ (exportYdrTextures encode materials).ddsFiles, d.1 ≠ n ++ ".dds") := by
  have hflat : ∀ mats : List MaterialC,
      mats.foldl (fun st mat => mat.textures.foldl (texStep encode) st)
        (⟨[], [], []⟩ : ExportState) =
      (mats.flatMap fun m => m.textures).foldl (texStep encode)
        (⟨[], [], []⟩ : ExportState) :=
    fun mats => foldl_flatMap_eq mats _ _ _
  have hocc : ((removeTexByName n materials).flatMap fun m => m.textures) =
      ((materials.flatMap fun m => m.textures).map fun occ => ((occ.1 : String),
        match occ.2 with
        | some fileName =>
          if sanitizeTextureName fileName = n then none else some fileName
        | none => none)) := by
    rw [List.map_flatMap]
    simp only [removeTexByName, List.flatMap_map]
  rcases texFold_skip_or_keep encode n henc
      (materials.flatMap fun m => m.textures) ⟨[], [], []⟩
      (by intro p hp; simp at hp) (by intro e he; simp at he)
      (by intro d hd; simp at hd) with ⟨heq, hent, hdds⟩
  refine ⟨?_, ?_, ?_⟩
  · simp only [exportYdrTextures, hflat, hocc]
    rw [heq]
  · intro e he
    apply hent
    simpa [exportYdrTextures, hflat] using he
  · intro d hd
    apply hdds
    simpa [exportYdrTextures, hflat] using hd

/-- Witness for `exportYdr_failed_texture_omitted`: one material, one
assigned texture, an encoder that always fails. -/
theorem exportYdr_failed_texture_omitted_witness :
    exportYdrTextures (fun _ => Except.error "Failed to decode image")
        [⟨"a", "d", [("DiffuseSampler", some "bad.png")]⟩] =
      exportYdrTextures (fun _ => Except.error "Failed to decode image")
        (removeTexByName "bad" [⟨"a", "d", [("DiffuseSampler", some "bad.png")]⟩]) ∧
    (∀ e ∈ (exportYdrTextures (fun _ => Except.error "Failed to decode image")
        [⟨"a", "d", [("DiffuseSampler", some "bad.png")]⟩]).serializerTextures,
      e.name ≠ "bad") ∧
    (∀ d ∈ (exportYdrTextures (fun _ => Except.error "Failed to decode image")
        [⟨"a", "d", [("DiffuseSampler", some "bad.png")]⟩]).ddsFiles,
      d.1 ≠ "bad" ++ ".dds") :=
  exportYdr_failed_texture_omitted (fun _ => Except.error "Failed to decode image")
    [⟨"a", "d", [("DiffuseSampler", some "bad.png")]⟩] "bad"
    (fun _ _ => ⟨"Failed to decode image", rfl⟩)
theorem lookup_zip_range' (seen : List ℕ) (hnd : seen.Nodup) :
    ∀ (k x : ℕ), (seen.zip (List.range' k seen.length)).lookup x =
      if x ∈ seen then some (k + seen.indexOf x) else none := by
  induction seen with
  | nil => intro k x; simp
  | cons a s ih =>
    intro k x
    rw [List.length_cons, List.range'_succ, List.zip_cons_cons, List.lookup_cons]
    by_cases hxa : x = a
    · subst hxa
      simp [List.indexOf_cons_self]
    · have hstep : (x == a) = false := by simpa using hxa
      rw [hstep]
      rw [ih (List.Nodup.of_cons hnd) (k + 1) x]
      by_cases hxs : x ∈ s
      · rw [if_pos hxs, if_pos (List.mem_cons_of_mem a hxs)]
        have hidx : List.indexOf x (a :: s) = List.indexOf x s + 1 := by
          rw [List.indexOf_cons_ne s (fun h => hxa h.symm)]
        rw [hidx]
        simp only [Option.some.injEq]
        omega
      · rw [if_neg hxs, if_neg (by simp [hxa, hxs])]

theorem remapStep_mem (seen used : List ℕ) (hnd : seen.Nodup) (x : ℕ)
    (hx : x ∈ seen) :
    remapStep (seen.zip (List.range seen.length), used) x =
      (seen.zip (List.range seen.length), used ++ [seen.indexOf x]) := by
  unfold remapStep
  rw [List.range_eq_range', lookup_zip_range' seen hnd 0 x, if_pos hx]
  simp

theorem remapStep_not_mem (seen used : List ℕ) (hnd : seen.Nodup) (x : ℕ)
    (hx : x ∉ seen) :
    remapStep (seen.zip (List.range seen.length), used) x =
      ((seen ++ [x]).zip (List.range (seen ++ [x]).length),
        used ++ [seen.length]) := by
  unfold remapStep
  rw [List.range_eq_range', lookup_zip_range' seen hnd 0 x, if_neg hx]
  have hlen : (seen.zip (List.range' 0 seen.length)).length = seen.length := by
    simp
  rw [← List.range_eq_range', List.length_append, List.length_singleton,
    List.range_succ, List.zip_append (by simp)]
  simp

theorem firstOccFrom_cons (seen : List ℕ) (x : ℕ) (l : List ℕ) :
    firstOccFrom seen (x :: l) =
      firstOccFrom (if x ∈ seen then seen else seen ++ [x]) l := by
  simp [firstOccFrom]

theorem firstOccFrom_extend (l : List ℕ) :
    ∀ seen, ∃ ext, firstOccFrom seen l = seen ++ ext := by
  induction l with
  | nil => exact fun seen => ⟨[], by simp [firstOccFrom]⟩
  | cons x t ih =>
    intro seen
    rw [firstOccFrom_cons]
    by_cases hx : x ∈ seen
    · rw [if_pos hx]
      exact ih seen
    · rw [if_neg hx]
      rcases ih (seen ++ [x]) with ⟨ext, hext⟩
      exact ⟨[x] ++ ext, by rw [hext, List.append_assoc]⟩

theorem firstOccFrom_mem (l : List ℕ) :
    ∀ (seen : List ℕ) (y : ℕ), y ∈ firstOccFrom seen l ↔ y ∈ seen ∨ y ∈ l := by
  induction l with
  | nil => simp [firstOccFrom]
  | cons x t ih =>
    intro seen y
    rw [firstOccFrom_cons]
    by_cases hx : x ∈ seen
    · rw [if_pos hx, ih seen y]
      constructor
      · rintro (h | h)
        · exact Or.inl h
        · exact Or.inr (List.mem_cons_of_mem x h)
      · rintro (h | h)
        · exact Or.inl h
        · rcases List.mem_cons.1 h with rfl | h
          · exact Or.inl hx
          · exact Or.inr h
    · rw [if_neg hx, ih (seen ++ [x]) y]
      simp only [List.mem_append, List.mem_singleton, List.mem_cons]
      tauto

theorem firstOccFrom_nodup (l : List ℕ) :
    ∀ seen : List ℕ, seen.Nodup → (firstOccFrom seen l).Nodup := by
  induction l with
  | nil => exact fun seen h => by simpa [firstOccFrom] using h
  | cons x t ih =>
    intro seen hnd
    rw [firstOccFrom_cons]
    by_cases hx : x ∈ seen
    · rw [if_pos hx]
      exact ih seen hnd
    · rw [if_neg hx]
      refine ih (seen ++ [x]) ?_
      rw [List.nodup_append]
      refine ⟨hnd, List.nodup_singleton x, ?_⟩
      intro a ha hax
      rcases List.mem_singleton.1 hax with rfl
      exact hx ha

theorem buildRemap_go (l : List ℕ) :
    ∀ (seen used0 : List ℕ), seen.Nodup →
      l.foldl remapStep (seen.zip (List.range seen.length), used0) =
        ((firstOccFrom seen l).zip (List.range (firstOccFrom seen l).length),
          used0 ++ l.map fun x => (firstOccFrom seen l).indexOf x) := by
  induction l with
  | nil =>
    intro seen used0 hnd
    simp [firstOccFrom]
  | cons x t ih =>
    intro seen used0 hnd
    rw [List.foldl_cons, firstOccFrom_cons]
    by_cases hx : x ∈ seen
    · rw [if_pos hx, remapStep_mem seen used0 hnd x hx, ih seen _ hnd]
      have hstab : (firstOccFrom seen t).indexOf x = seen.indexOf x := by
        rcases firstOccFrom_extend t seen with ⟨ext, hext⟩
        rw [hext, List.indexOf_append_of_mem hx]
      rw [List.map_cons, hstab]
      simp
    · rw [if_neg hx, remapStep_not_mem seen used0 hnd x hx]
      have hnd' : (seen ++ [x]).Nodup := by
        rw [List.nodup_append]
        refine ⟨hnd, List.nodup_singleton x, ?_⟩
        intro a ha hax
        rcases List.mem_singleton.1 hax with rfl
        exact hx ha
      rw [ih (seen ++ [x]) _ hnd']
      have hstab : (firstOccFrom (seen ++ [x]) t).indexOf x = seen.length := by
        rcases firstOccFrom_extend t (seen ++ [x]) with ⟨ext, hext⟩
        rw [hext, List.append_assoc, List.indexOf_append_of_not_mem hx,
          List.singleton_append, List.indexOf_cons_self]
        omega
      rw [List.map_cons, hstab]
      simp

theorem walkedIndices_eq (srcIndices : List ℕ) (startIndex count : ℕ)
    (h : startIndex + count ≤ srcIndices.length) :
    walkedIndices srcIndices startIndex count =
      (srcIndices.drop startIndex).take count := by
  apply List.ext_getElem
  · simp only [walkedIndices, List.length_map, List.length_range',
      List.length_take, List.length_drop]
    omega
  · intro i h1 h2
    simp only [walkedIndices, List.getElem_map, List.getElem_range']
    rw [List.getElem_take, List.getElem_drop]
    have hb : startIndex + 1 * i < srcIndices.length := by
      simp only [walkedIndices, List.length_map, List.length_range'] at h1
      omega
    rw [List.getD_eq_getElem srcIndices 0 hb]
    congr 1
    omega

/-- C1: for every partition of the triangle index buffer, the vertex remap
pairs each distinct original index, in first-appearance order, with the
sequential local indices `0, 1, 2, …`; `usedIndices` is the walked index
sequence translated through that first-appearance list; consequently the
output vertex count equals the number of distinct original indices
referenced by the partition, every output local index is `<` the output
vertex count, and every output vertex is referenced by at least one
triangle index. -/
theorem extractSubMesh_remap_claim (srcIndices : List ℕ) (startIndex count : ℕ)
    (hrange : startIndex + count ≤ srcIndices.length) :
    walkedIndices srcIndices startIndex count =
      (srcIndices.drop startIndex).take count ∧
    (extractSubMeshRemap srcIndices startIndex count).1 =
      (firstOcc (walkedIndices srcIndices startIndex count)).zip
        (List.range (firstOcc (walkedIndices srcIndices startIndex count)).length) ∧
    (extractSubMeshRemap srcIndices startIndex count).2 =
      (walkedIndices srcIndices startIndex count).map
        (fun x => (firstOcc (walkedIndices srcIndices startIndex count)).indexOf x) ∧
    (extractSubMeshRemap srcIndices startIndex count).1.length =
      (walkedIndices srcIndices startIndex count).toFinset.card ∧
    (extractSubMeshRemap srcIndices startIndex count).2.length = count ∧
    (∀ l ∈ (extractSubMeshRemap srcIndices startIndex count).2,
      l < (extractSubMeshRemap srcIndices startIndex count).1.length) ∧
    (∀ j < (extractSubMeshRemap srcIndices startIndex count).1.length,
      j ∈ (extractSubMeshRemap srcIndices startIndex count).2) := by
  have hmain := buildRemap_go (walkedIndices srcIndices startIndex count) [] []
    List.nodup_nil
  have hrem : extractSubMeshRemap srcIndices startIndex count =
      ((firstOcc (walkedIndices srcIndices startIndex count)).zip
        (List.range (firstOcc (walkedIndices srcIndices startIndex count)).length),
        [] ++ (walkedIndices srcIndices startIndex count).map
          fun x => (firstOcc (walkedIndices srcIndices startIndex count)).indexOf x) :=
    hmain
  have hnd : (firstOcc (walkedIndices srcIndices startIndex count)).Nodup :=
    firstOccFrom_nodup (walkedIndices srcIndices startIndex count) [] List.nodup_nil
  have hmemF : ∀ y, y ∈ firstOcc (walkedIndices srcIndices startIndex count) ↔
      y ∈ walkedIndices srcIndices startIndex count := by
    intro y
    have := firstOccFrom_mem (walkedIndices srcIndices startIndex count) [] y
    simpa [firstOcc] using this
  have hwlen : (walkedIndices srcIndices startIndex count).length = count := by
    simp [walkedIndices]
  refine ⟨walkedIndices_eq srcIndices startIndex count hrange, ?_, ?_, ?_, ?_, ?_, ?_⟩
  · rw [hrem]
  · rw [hrem]
    simp
  · rw [hrem]
    simp only [List.length_zip, List.length_range, min_self]
    have hfin : (firstOcc (walkedIndices srcIndices startIndex count)).toFinset =
        (walkedIndices srcIndices startIndex count).toFinset := by
      ext y
      simp [List.mem_toFinset, hmemF y]
    rw [← hfin, List.card_toFinset, List.Nodup.dedup hnd]
  · rw [hrem]
    simp [hwlen]
  · rw [hrem]
    intro l hl
    simp only [List.nil_append, List.mem_map] at hl
    rcases hl with ⟨x, hxw, rfl⟩
    simp only [List.length_zip, List.length_range, min_self]
    exact List.indexOf_lt_length.2 ((hmemF x).2 hxw)
  · rw [hrem]
    intro j hj
    simp only [List.length_zip, List.length_range, min_self] at hj
    have hjF : (firstOcc (walkedIndices srcIndices startIndex count))[j] ∈
        firstOcc (walkedIndices srcIndices startIndex count) :=
      List.getElem_mem hj
    have hFw := (hmemF _).1 hjF
    have hidx := List.indexOf_getElem hnd j hj
    simp only [List.nil_append, List.mem_map]
    exact ⟨_, hFw, hidx⟩

/-- Witness for `extractSubMesh_remap_claim` on the partition `[5,6,5,7]`. -/
theorem extractSubMesh_remap_claim_witness :
    walkedIndices [5, 6, 5, 7] 0 4 = (([5, 6, 5, 7] : List ℕ).drop 0).take 4 ∧
    (extractSubMeshRemap [5, 6, 5, 7] 0 4).1 =
      (firstOcc (walkedIndices [5, 6, 5, 7] 0 4)).zip
        (List.range (firstOcc (walkedIndices [5, 6, 5, 7] 0 4)).length) ∧
    (extractSubMeshRemap [5, 6, 5, 7] 0 4).2 =
      (walkedIndices [5, 6, 5, 7] 0 4).map
        (fun x => (firstOcc (walkedIndices [5, 6, 5, 7] 0 4)).indexOf x) ∧
    (extractSubMeshRemap [5, 6, 5, 7] 0 4).1.length =
      (walkedIndices [5, 6, 5, 7] 0 4).toFinset.card ∧
    (extractSubMeshRemap [5, 6, 5, 7] 0 4).2.length = 4 ∧
    (∀ l ∈ (extractSubMeshRemap [5, 6, 5, 7] 0 4).2,
      l < (extractSubMeshRemap [5, 6, 5, 7] 0 4).1.length) ∧
    (∀ j < (extractSubMeshRemap [5, 6, 5, 7] 0 4).1.length,
      j ∈ (extractSubMeshRemap [5, 6, 5, 7] 0 4).2) :=
  extractSubMesh_remap_claim [5, 6, 5, 7] 0 4 (by norm_num)

theorem digitChar_isDigit (d : ℕ) (hd : d < 10) :
    (Nat.digitChar d).isDigit = true := by
  interval_cases d <;> decide

theorem isDigit_ne_dot {c : Char} (h : c.isDigit = true) : c ≠ '.' := by
  intro hdot
  subst hdot
  exact absurd h (by decide)

theorem isDigit_ne_dash {c : Char} (h : c.isDigit = true) : c ≠ '-' := by
  intro hdot
  subst hdot
  exact absurd h (by decide)

theorem natChars_length_le (d : ℕ) :
    ∀ n : ℕ, 1 ≤ d → n < 10 ^ d → (natChars n).length ≤ d := by
  induction d with
  | zero => omega
  | succ d ih =>
    intro n hd hn
    rw [natChars_rec]
    by_cases h10 : n < 10
    · rw [if_pos h10]
      simp
    · rw [if_neg h10]
      have hd1 : 1 ≤ d := by
        by_contra hc
        have hd0 : d = 0 := by omega
        subst hd0
        simp at hn
        omega
      have hdiv : n / 10 < 10 ^ d := by
        rw [Nat.div_lt_iff_lt_mul (by norm_num)]
        calc n < 10 ^ (d + 1) := hn
        _ = 10 ^ d * 10 := by ring
      have := ih (n / 10) hd1 hdiv
      simp only [List.length_append, List.length_singleton]
      omega

theorem natChars_isDigit (n : ℕ) : ∀ c ∈ natChars n, c.isDigit = true := by
  intro c hc
  rcases natChars_mem n c hc with ⟨d, hd, rfl⟩
  exact digitChar_isDigit d hd

theorem padZeros_length {d : ℕ} {s : List Char} (h : s.length ≤ d) :
    (padZeros d s).length = d := by
  simp only [padZeros, List.length_append, List.length_replicate]
  omega

theorem padZeros_isDigit {d : ℕ} {s : List Char}
    (h : ∀ c ∈ s, c.isDigit = true) :
    ∀ c ∈ padZeros d s, c.isDigit = true := by
  intro c hc
  rcases List.mem_append.1 hc with h1 | h1
  · rw [List.eq_of_mem_replicate h1]
    decide
  · exact h c h1

theorem fracLen_append_dot (pre frac : List Char)
    (hfr : ∀ c ∈ frac, c ≠ '.') :
    fracLen (pre ++ '.' :: frac) = frac.length := by
  unfold fracLen
  have hrev : (pre ++ '.' :: frac).reverse = frac.reverse ++ '.' :: pre.reverse := by
    simp
  rw [hrev, List.takeWhile_append_of_pos
    (by
      intro a ha
      simpa using hfr a (List.mem_reverse.1 ha)),
    List.takeWhile_cons]
  simp

theorem jsToFixed_decomp (q : ℚ) (d : ℕ) :
    jsToFixed q d = ((if q < 0 then ['-'] else []) ++
      natChars ((⌊|q| * 10 ^ d + 1 / 2⌋).toNat / 10 ^ d)) ++ '.' ::
      padZeros d (natChars ((⌊|q| * 10 ^ d + 1 / 2⌋).toNat % 10 ^ d)) := by
  simp only [jsToFixed]

theorem jsToFixed_frac_length (q : ℚ) (d : ℕ) (hd : 1 ≤ d) :
    (padZeros d (natChars ((⌊|q| * 10 ^ d + 1 / 2⌋).toNat % 10 ^ d))).length = d := by
  apply padZeros_length
  exact natChars_length_le d _ hd (Nat.mod_lt _ (by positivity))

theorem fracLen_jsToFixed (q : ℚ) (d : ℕ) (hd : 1 ≤ d) :
    fracLen (jsToFixed q d) = d := by
  rw [jsToFixed_decomp, fracLen_append_dot]
  · exact jsToFixed_frac_length q d hd
  · intro c hc
    exact isDigit_ne_dot (padZeros_isDigit (natChars_isDigit _) c hc)

theorem drop_length_takeWhile {α : Type} (p : α → Bool) (l : List α) :
    l.drop (l.takeWhile p).length = l.dropWhile p := by
  induction l with
  | nil => rfl
  | cons a l ih =>
    rw [List.takeWhile_cons, List.dropWhile_cons]
    by_cases h : p a
    · simp [h, ih]
    · simp [h]

theorem strip_spec (pre frac : List Char) (hne : frac ≠ [])
    (hdig : ∀ c ∈ frac, c.isDigit = true) :
    ∃ k, 1 ≤ k ∧ k ≤ frac.length ∧
      dotToDotZero (stripTrailingZeros (pre ++ '.' :: frac)) ++
        List.replicate (frac.length - k) '0' = pre ++ '.' :: frac ∧
      fracLen (dotToDotZero (stripTrailingZeros (pre ++ '.' :: frac))) = k ∧
      (k = 1 ∨
        (dotToDotZero (stripTrailingZeros (pre ++ '.' :: frac))).getLast? ≠
          some '0') := by
  have hlenpos : 0 < frac.length := List.length_pos.2 hne
  have hrev : (pre ++ '.' :: frac).reverse = frac.reverse ++ '.' :: pre.reverse := by
    simp
  have hdecomp : frac.reverse =
      frac.reverse.takeWhile (fun c => c == '0') ++
        frac.reverse.dropWhile (fun c => c == '0') :=
    (List.takeWhile_append_dropWhile _ _).symm
  have hzrep : frac.reverse.takeWhile (fun c => c == '0') =
      List.replicate (frac.reverse.takeWhile (fun c => c == '0')).length '0' := by
    rw [List.eq_replicate_iff]
    refine ⟨rfl, fun b hb => ?_⟩
    simpa using List.mem_takeWhile_imp hb
  have hlens := congrArg List.length hdecomp
  rw [List.length_reverse, List.length_append] at hlens
  have hzrev : (frac.reverse.takeWhile (fun c => c == '0')).reverse =
      List.replicate (frac.reverse.takeWhile (fun c => c == '0')).length '0' := by
    conv_lhs => rw [hzrep]
    simp
  have hfrac_eq : frac =
      (frac.reverse.dropWhile (fun c => c == '0')).reverse ++
        List.replicate (frac.reverse.takeWhile (fun c => c == '0')).length '0' := by
    have h2 := congrArg List.reverse hdecomp
    rw [List.reverse_reverse, List.reverse_append] at h2
    conv_lhs => rw [h2]
    rw [hzrev]
  have hBdig : ∀ c ∈ frac.reverse.dropWhile (fun c => c == '0'),
      c.isDigit = true := by
    intro c hc
    apply hdig
    rw [← List.mem_reverse, hdecomp]
    exact List.mem_append.2 (Or.inr hc)
  by_cases hzfrac : (frac.reverse.takeWhile (fun c => c == '0')).length = frac.length
  · -- the fractional part is all zeros: strip to the dot, re-append one zero
    have hBnil : frac.reverse.dropWhile (fun c => c == '0') = [] := by
      rw [← List.length_eq_zero]
      omega
    have hfz : frac = List.replicate frac.length '0' := by
      have := hfrac_eq
      rw [hBnil, hzfrac] at this
      simpa using this
    have hq1 : (pre ++ '.' :: frac).reverse.takeWhile (fun c => c == '0') =
        frac.reverse := by
      rw [hrev, List.takeWhile_append, if_pos (by rw [hzfrac, List.length_reverse]),
        List.takeWhile_cons]
      simp
    have hstrip : stripTrailingZeros (pre ++ '.' :: frac) = pre ++ ['.'] := by
      simp only [stripTrailingZeros]
      rw [hq1]
      rw [hrev, List.drop_left' (by rw [List.length_reverse])]
      rw [List.takeWhile_cons]
      simp only [show (('.').isDigit) = false from rfl, Bool.false_eq_true, if_false]
      rw [if_pos ⟨by simpa using hne, by simp⟩]
      simp
    rw [hstrip]
    have hdot : dotToDotZero (pre ++ ['.']) = pre ++ ['.', '0'] := by
      unfold dotToDotZero
      rw [if_pos (List.getLast?_concat pre)]
      simp
    rw [hdot]
    refine ⟨1, le_refl 1, hlenpos, ?_, ?_, Or.inl rfl⟩
    · have : (pre ++ ['.', '0']) ++ List.replicate (frac.length - 1) '0' =
          pre ++ '.' :: ('0' :: List.replicate (frac.length - 1) '0') := by
        simp
      rw [this, ← List.replicate_succ]
      rw [show frac.length - 1 + 1 = frac.length by omega, ← hfz]
    · have : pre ++ ['.', '0'] = pre ++ '.' :: ['0'] := rfl
      rw [this, fracLen_append_dot]
      · rfl
      · intro c hc
        simp only [List.mem_singleton] at hc
        subst hc
        decide
  · -- a non-zero digit precedes the trailing zeros
    have hzlt : (frac.reverse.takeWhile (fun c => c == '0')).length < frac.length := by
      have : (frac.reverse.takeWhile (fun c => c == '0')).length ≤ frac.length := by
        omega
      omega
    have hBne : frac.reverse.dropWhile (fun c => c == '0') ≠ [] := by
      intro h
      rw [h] at hlens
      simp at hlens
      omega
    have hBhead : ((frac.reverse.dropWhile (fun c => c == '0')).head hBne == '0') =
        false := List.head_dropWhile_not _ _ hBne
    have hBheadne : (frac.reverse.dropWhile (fun c => c == '0')).head hBne ≠ '0' := by
      simpa using hBhead
    have hdigB : ((frac.reverse.dropWhile (fun c => c == '0')).head hBne).isDigit =
        true :=
      hBdig _ (List.head_mem hBne)
    have hq1 : (pre ++ '.' :: frac).reverse.takeWhile (fun c => c == '0') =
        frac.reverse.takeWhile (fun c => c == '0') := by
      rw [hrev, List.takeWhile_append,
        if_neg (by rw [List.length_reverse]; exact hzfrac)]
    have hdropz : (pre ++ '.' :: frac).reverse.drop
        (frac.reverse.takeWhile (fun c => c == '0')).length =
        frac.reverse.dropWhile (fun c => c == '0') ++ '.' :: pre.reverse := by
      rw [hrev, List.drop_append_of_le_length (by rw [List.length_reverse]; omega)]
      congr 1
      exact drop_length_takeWhile _ _
    by_cases hz0 : (frac.reverse.takeWhile (fun c => c == '0')).length = 0
    · -- no trailing zeros: the regex does not match, the string is unchanged
      have hzsnil : frac.reverse.takeWhile (fun c => c == '0') = [] :=
        List.length_eq_zero.1 hz0
      have hstrip : stripTrailingZeros (pre ++ '.' :: frac) = pre ++ '.' :: frac := by
        simp only [stripTrailingZeros, hq1, hzsnil]
        simp
      have hBeq : frac.reverse.dropWhile (fun c => c == '0') = frac.reverse := by
        conv_rhs => rw [hdecomp]
        rw [hzsnil]
        simp
      have hlast : (pre ++ '.' :: frac).getLast? =
          some ((frac.reverse.dropWhile (fun c => c == '0')).head hBne) := by
        rw [← List.head?_reverse, hrev, List.head?_append,
          ← congrArg List.head? hBeq, List.head?_eq_head hBne]
        simp
      have hdot : dotToDotZero (pre ++ '.' :: frac) = pre ++ '.' :: frac := by
        unfold dotToDotZero
        rw [if_neg]
        rw [hlast]
        intro hcontra
        exact isDigit_ne_dot hdigB (Option.some.inj hcontra)
      refine ⟨frac.length, hlenpos, le_refl _, ?_, ?_, Or.inr ?_⟩
      · rw [hstrip, hdot]
        simp
      · rw [hstrip, hdot, fracLen_append_dot]
        intro c hc
        exact isDigit_ne_dot (hdig c hc)
      · rw [hstrip, hdot, hlast]
        intro hcontra
        exact hBheadne (Option.some.inj hcontra)
    · -- a positive run of trailing zeros is stripped down to the last
      -- non-zero digit
      have hstrip : stripTrailingZeros (pre ++ '.' :: frac) =
          pre ++ '.' :: (frac.reverse.dropWhile (fun c => c == '0')).reverse := by
        simp only [stripTrailingZeros]
        rw [hq1, hdropz, List.takeWhile_append_of_pos hBdig, List.takeWhile_cons]
        simp only [show (('.').isDigit) = false from rfl, Bool.false_eq_true,
          if_false, List.append_nil]
        rw [if_pos ⟨by
            intro hcontra
            rw [hcontra] at hz0
            simp at hz0,
          by
            rw [List.drop_left]
            simp⟩]
        simp
      have hlast2 : (pre ++ '.' ::
          (frac.reverse.dropWhile (fun c => c == '0')).reverse).getLast? =
          some ((frac.reverse.dropWhile (fun c => c == '0')).head hBne) := by
        rw [← List.head?_reverse]
        simp only [List.reverse_append, List.reverse_cons, List.reverse_reverse,
          List.append_assoc, List.singleton_append, List.head?_append]
        rw [List.head?_eq_head hBne]
        simp
      have hdot : dotToDotZero (pre ++ '.' ::
          (frac.reverse.dropWhile (fun c => c == '0')).reverse) =
          pre ++ '.' :: (frac.reverse.dropWhile (fun c => c == '0')).reverse := by
        unfold dotToDotZero
        rw [if_neg]
        rw [hlast2]
        intro hcontra
        exact isDigit_ne_dot hdigB (Option.some.inj hcontra)
      refine ⟨frac.length - (frac.reverse.takeWhile (fun c => c == '0')).length,
        by omega, by omega, ?_, ?_, Or.inr ?_⟩
      · rw [hstrip, hdot]
        have hsub : frac.length -
            (frac.length - (frac.reverse.takeWhile (fun c => c == '0')).length) =
            (frac.reverse.takeWhile (fun c => c == '0')).length := by omega
        rw [hsub, List.append_assoc, List.cons_append, ← hfrac_eq]
      · rw [hstrip, hdot, fracLen_append_dot]
        · rw [List.length_reverse]
          omega
        · intro c hc
          exact isDigit_ne_dot (hBdig c (List.mem_reverse.1 hc))
      · rw [hstrip, hdot, hlast2]
        intro hcontra
        exact hBheadne (Option.some.inj hcontra)

set_option maxHeartbeats 1000000 in
/-- C5: the serializer's numeric formatter `f` renders an integral value
with exactly one fractional digit, and a non-integral value as its
7-fractional-digit rendering with trailing zeros stripped but never past
the first fractional digit: the stripped output, re-padded with the
dropped zeros, is the 7-digit rendering, its fractional length `k` lies
between 1 and 7, and it never ends in `'0'` unless `k = 1`; `1` renders as
`"1.0"` and `0.33333333` as `"0.3333333"`.  `f` is modelled over `ℚ`; the
magnitude bound keeps the model inside `toFixed`'s plain decimal range
(JS switches to exponential rendering at `10^21`). -/
theorem f_format_claim (q : ℚ) (hq : |q| < 10 ^ 21) :
    (q.den = 1 → fracLen (f q) = 1) ∧
    (q.den ≠ 1 →
      fracLen (jsToFixed q 7) = 7 ∧
      ∃ k, 1 ≤ k ∧ k ≤ 7 ∧
        f q ++ List.replicate (7 - k) '0' = jsToFixed q 7 ∧
        fracLen (f q) = k ∧
        (k = 1 ∨ (f q).getLast? ≠ some '0')) ∧
    f 1 = ['1', '.', '0'] ∧
    f (33333333 / 100000000) = ['0', '.', '3', '3', '3', '3', '3', '3', '3'] := by
  refine ⟨?_, ?_, ?_, ?_⟩
  · intro hden
    unfold f
    rw [if_pos hden]
    exact fracLen_jsToFixed q 1 (le_refl 1)
  · intro hden
    refine ⟨fracLen_jsToFixed q 7 (by norm_num), ?_⟩
    have hfq : f q = dotToDotZero (stripTrailingZeros (jsToFixed q 7)) := by
      unfold f
      rw [if_neg hden]
    have hlen7 :
        (padZeros 7 (natChars ((⌊|q| * 10 ^ 7 + 1 / 2⌋).toNat % 10 ^ 7))).length =
        7 := jsToFixed_frac_length q 7 (by norm_num)
    have hne7 :
        padZeros 7 (natChars ((⌊|q| * 10 ^ 7 + 1 / 2⌋).toNat % 10 ^ 7)) ≠ [] := by
      intro h
      rw [h] at hlen7
      simp at hlen7
    obtain ⟨k, hk1, hkle, happ, hfl, hlast⟩ :=
      strip_spec ((if q < 0 then ['-'] else []) ++
          natChars ((⌊|q| * 10 ^ 7 + 1 / 2⌋).toNat / 10 ^ 7))
        (padZeros 7 (natChars ((⌊|q| * 10 ^ 7 + 1 / 2⌋).toNat % 10 ^ 7)))
        hne7 (padZeros_isDigit (natChars_isDigit _))
    rw [hlen7] at hkle happ
    refine ⟨k, hk1, hkle, ?_, ?_, ?_⟩
    · rw [hfq, jsToFixed_decomp q 7]
      exact happ
    · rw [hfq, jsToFixed_decomp q 7]
      exact hfl
    · rcases hlast with h | h
      · exact Or.inl h
      · refine Or.inr ?_
        rw [hfq, jsToFixed_decomp q 7]
        exact h
  · have hfloor : ⌊|(1 : ℚ)| * 10 ^ 1 + 1 / 2⌋ = 10 := by
      rw [abs_one, Int.floor_eq_iff]
      constructor <;> norm_num
    unfold f jsToFixed
    rw [if_pos (show (1 : ℚ).den = 1 from rfl), hfloor]
    rfl
  · have hden : (33333333 / 100000000 : ℚ).den ≠ 1 := by
      intro h
      have hint : ((33333333 / 100000000 : ℚ).num : ℚ) = 33333333 / 100000000 := by
        rw [← Rat.num_div_den (33333333 / 100000000 : ℚ), h]
        simp
      have h0 : (0 : ℚ) < ((33333333 / 100000000 : ℚ).num : ℚ) := by
        rw [hint]
        norm_num
      have h1 : ((33333333 / 100000000 : ℚ).num : ℚ) < 1 := by
        rw [hint]
        norm_num
      have h0' : (0 : ℤ) < (33333333 / 100000000 : ℚ).num := by exact_mod_cast h0
      have h1' : (33333333 / 100000000 : ℚ).num < 1 := by exact_mod_cast h1
      omega
    have hfloor : ⌊|(33333333 / 100000000 : ℚ)| * 10 ^ 7 + 1 / 2⌋ = 3333333 := by
      rw [abs_of_nonneg (by norm_num : (0 : ℚ) ≤ 33333333 / 100000000),
        Int.floor_eq_iff]
      constructor <;> norm_num
    unfold f jsToFixed
    rw [if_neg hden, if_neg (by norm_num : ¬(33333333 / 100000000 : ℚ) < 0), hfloor]
    rfl

/-- Witness for `f_format_claim` at `q = 1/2`. -/
theorem f_format_claim_witness :
    ((1 / 2 : ℚ).den = 1 → fracLen (f (1 / 2)) = 1) ∧
    ((1 / 2 : ℚ).den ≠ 1 →
      fracLen (jsToFixed (1 / 2) 7) = 7 ∧
      ∃ k, 1 ≤ k ∧ k ≤ 7 ∧
        f (1 / 2) ++ List.replicate (7 - k) '0' = jsToFixed (1 / 2) 7 ∧
        fracLen (f (1 / 2)) = k ∧
        (k = 1 ∨ (f (1 / 2)).getLast? ≠ some '0')) ∧
    f 1 = ['1', '.', '0'] ∧
    f (33333333 / 100000000) = ['0', '.', '3', '3', '3', '3', '3', '3', '3'] :=
  f_format_claim (1 / 2) (by
    rw [abs_of_nonneg (by norm_num : (0 : ℚ) ≤ 1 / 2)]
    norm_num)
